import Mathlib

set_option maxHeartbeats 1000000
set_option maxRecDepth 20000

namespace PrayerQuotes

/-! ## Character-class model

Python's `re` module on `str` is Unicode-aware.  We model the character
classes over the code points that occur in this repository's OCR/HTML text:
`\s` (and `str.strip()` / `str.isspace`) is modelled by the standard Unicode
whitespace code points, and `\d` and `\w` by their ASCII subsets.
`unicodedata.normalize("NFKC", ·)` (used only by the miner's `norm`) is
modelled by an explicit executable fragment of NFKC — see `Mine.nfkc`:
compatibility singletons `µ ¹ ² ³` and canonical composition of a combining
acute or grave accent (U+0301/U+0300) directly following an ASCII vowel,
with any other intervening character blocking composition, exactly as in
Unicode; sequences outside this fragment are left unchanged.  Every theorem
evaluates `nfkc` only inside the fragment: on ASCII text (where real NFKC
is the identity, as is the model) or on the listed sequences. -/

/-- Python `\s` / `str.isspace`: Unicode whitespace code points. -/
def isSpaceChar (c : Char) : Bool :=
  c.toNat == 0x20 || c.toNat == 0x09 || c.toNat == 0x0a || c.toNat == 0x0d ||
  c.toNat == 0x0b || c.toNat == 0x0c ||
  c.toNat == 0x1c || c.toNat == 0x1d || c.toNat == 0x1e || c.toNat == 0x1f ||
  c.toNat == 0x85 || c.toNat == 0xa0 || c.toNat == 0x1680 ||
  c.toNat == 0x2000 || c.toNat == 0x2001 || c.toNat == 0x2002 ||
  c.toNat == 0x2003 || c.toNat == 0x2004 || c.toNat == 0x2005 ||
  c.toNat == 0x2006 || c.toNat == 0x2007 || c.toNat == 0x2008 ||
  c.toNat == 0x2009 || c.toNat == 0x200a ||
  c.toNat == 0x2028 || c.toNat == 0x2029 || c.toNat == 0x202f ||
  c.toNat == 0x205f || c.toNat == 0x3000

/-- Python `\d`, modelled as the ASCII digits. -/
def isDigitChar (c : Char) : Bool :=
  c.toNat == 48 || c.toNat == 49 || c.toNat == 50 || c.toNat == 51 || c.toNat == 52 ||
  c.toNat == 53 || c.toNat == 54 || c.toNat == 55 || c.toNat == 56 || c.toNat == 57

/-- Python `\w`, modelled as ASCII alphanumerics plus underscore. -/
def isWordChar (c : Char) : Bool :=
  (decide (65 ≤ c.toNat) && decide (c.toNat ≤ 90)) ||
  (decide (97 ≤ c.toNat) && decide (c.toNat ≤ 122)) ||
  isDigitChar c || c == '_'

/-- Whitespace characters are not digits. -/
theorem space_not_digit {c : Char} (h : isSpaceChar c = true) : isDigitChar c = false := by
  simp only [isSpaceChar, Bool.or_eq_true, beq_iff_eq] at h
  simp only [isDigitChar, Bool.or_eq_false_iff, beq_eq_false_iff_ne, ne_eq]
  omega

/-! ## Whitespace collapsing

`WS_RE = re.compile(r"\s+")` and `WS_RE.sub(" ", s).strip()` appear in every
script (`norm`, `normalize`, `normalize_text`, `make_key`, `norm_key`).
`subWsRuns` replaces each maximal whitespace run by a single space
(`WS_RE.sub(" ", s)`), `trimWs` is `str.strip()`, and `collapseWs` is their
composition. -/

/-- One step of `subWsRuns` (folded from the right): a whitespace character
merges into an immediately following collapsed run. -/
def subWsStep (c : Char) (acc : List Char) : List Char :=
  if isSpaceChar c then
    if acc.head? = some ' ' then acc else ' ' :: acc
  else c :: acc

/-- `WS_RE.sub(" ", s)`: replace each maximal whitespace run by one space. -/
def subWsRuns (l : List Char) : List Char := l.foldr subWsStep []

/-- `str.strip()`: drop leading and trailing whitespace. -/
def trimWs (l : List Char) : List Char :=
  ((l.dropWhile isSpaceChar).reverse.dropWhile isSpaceChar).reverse

/-- `WS_RE.sub(" ", s).strip()`. -/
def collapseWs (l : List Char) : List Char := trimWs (subWsRuns l)

/-- The maximal runs of characters not satisfying `p`, in order. -/
def wordsBy (p : Char → Bool) : List Char → List (List Char)
  | [] => []
  | c :: cs =>
    if p c then wordsBy p cs
    else (c :: cs.takeWhile (fun x => !p x)) ::
      wordsBy p (cs.dropWhile (fun x => !p x))
termination_by l => l.length
decreasing_by
  all_goals
    have h : (List.dropWhile (fun x => !p x) cs).length ≤ cs.length :=
      List.IsSuffix.length_le (List.dropWhile_suffix _)
    simp only [List.length_cons]
    omega

/-- The maximal non-whitespace runs of a string, in order (a proof-side
description of what whitespace collapsing keeps). -/
def wsWords (l : List Char) : List (List Char) := wordsBy isSpaceChar l

theorem wordsBy_nil (p : Char → Bool) : wordsBy p [] = [] := by rw [wordsBy.eq_1]

theorem wordsBy_cons_pos (p : Char → Bool) {c : Char} (cs : List Char) (h : p c = true) :
    wordsBy p (c :: cs) = wordsBy p cs := by
  rw [wordsBy.eq_2, if_pos h]

theorem wordsBy_cons_neg (p : Char → Bool) {c : Char} (cs : List Char) (h : p c = false) :
    wordsBy p (c :: cs) = (c :: cs.takeWhile (fun x => !p x)) ::
      wordsBy p (cs.dropWhile (fun x => !p x)) := by
  rw [wordsBy.eq_2, if_neg (by simp [h])]

theorem wordsBy_dropWhile (p : Char → Bool) (l : List Char) :
    wordsBy p (l.dropWhile p) = wordsBy p l := by
  induction l with
  | nil => rfl
  | cons c cs ih =>
    by_cases h : p c = true
    · rw [List.dropWhile_cons_of_pos h, ih, wordsBy_cons_pos p cs h]
    · rw [List.dropWhile_cons_of_neg (by simp_all)]

/-- Every word produced by `wordsBy` is nonempty. -/
theorem wordsBy_ne_nil (p : Char → Bool) (l : List Char) : ∀ w ∈ wordsBy p l, w ≠ [] := by
  induction l using wordsBy.induct p with
  | case1 => simp [wordsBy_nil]
  | case2 c cs h ih =>
    rw [wordsBy_cons_pos p cs h]; exact ih
  | case3 c cs h ih =>
    rw [wordsBy_cons_neg p cs (by simpa using h)]
    intro w hw
    rcases List.mem_cons.mp hw with hw | hw
    · simp [hw]
    · exact ih w hw

/-- No word produced by `wordsBy p` contains a character satisfying `p`. -/
theorem wordsBy_no_sep (p : Char → Bool) (l : List Char) :
    ∀ w ∈ wordsBy p l, ∀ c ∈ w, p c = false := by
  induction l using wordsBy.induct p with
  | case1 => simp [wordsBy_nil]
  | case2 c cs h ih =>
    rw [wordsBy_cons_pos p cs h]; exact ih
  | case3 c cs h ih =>
    rw [wordsBy_cons_neg p cs (by simpa using h)]
    intro w hw
    rcases List.mem_cons.mp hw with hw | hw
    · subst hw
      intro x hx
      rcases List.mem_cons.mp hx with hx | hx
      · subst hx; simpa using h
      · simpa using List.mem_takeWhile_imp hx
    · exact ih w hw

theorem subWs_cons_not_ws {c : Char} (cs : List Char) (h : isSpaceChar c = false) :
    subWsRuns (c :: cs) = c :: subWsRuns cs := by
  simp [subWsRuns, subWsStep, h]

theorem subWs_cons_ws {c : Char} (cs : List Char) (h : isSpaceChar c = true) :
    subWsRuns (c :: cs) = ' ' :: subWsRuns (cs.dropWhile isSpaceChar) := by
  induction cs generalizing c with
  | nil => simp [subWsRuns, subWsStep, h]
  | cons d cs' ih =>
    by_cases hd : isSpaceChar d = true
    · rw [List.dropWhile_cons_of_pos hd]
      have h1 : subWsRuns (c :: d :: cs') = subWsStep c (subWsRuns (d :: cs')) := rfl
      rw [h1, ih hd]
      simp [subWsStep, h]
    · have hd' : isSpaceChar d = false := by simpa using hd
      rw [List.dropWhile_cons_of_neg (by simp [hd'])]
      have h1 : subWsRuns (c :: d :: cs') = subWsStep c (subWsRuns (d :: cs')) := rfl
      rw [h1, subWs_cons_not_ws cs' hd']
      have hne : d ≠ ' ' := by
        intro hde; rw [hde] at hd'; exact absurd hd' (by simp [isSpaceChar])
      simp [subWsStep, h, hne]

theorem trimWs_cons_not_ws {c : Char} (l : List Char) (h : isSpaceChar c = false) :
    trimWs (c :: l) = c :: (l.reverse.dropWhile isSpaceChar).reverse := by
  rw [trimWs, List.dropWhile_cons_of_neg (by simp [h]), List.reverse_cons,
    List.dropWhile_append]
  by_cases he : (l.reverse.dropWhile isSpaceChar).isEmpty
  · rw [List.isEmpty_iff] at he
    simp [he, List.dropWhile_cons_of_neg, h]
  · simp only [he, if_neg, Bool.false_eq_true, not_false_iff, if_false]
    simp [List.reverse_append]

/-- Right-side `strip()`. -/
def rtrimWs (l : List Char) : List Char := (l.reverse.dropWhile isSpaceChar).reverse

theorem trimWs_eq_rtrim (l : List Char) :
    trimWs l = rtrimWs (l.dropWhile isSpaceChar) := rfl

/-- Join words with single spaces (the shape of every collapsed string). -/
def joinWords : List (List Char) → List Char
  | [] => []
  | [w] => w
  | w :: w2 :: ws => w ++ ' ' :: joinWords (w2 :: ws)

theorem joinWords_cons (w : List Char) (W : List (List Char)) :
    joinWords (w :: W) = w ++ (if W = [] then [] else ' ' :: joinWords W) := by
  cases W with
  | nil => simp [joinWords]
  | cons w2 ws => simp [joinWords]

theorem dropWhile_eq_self_of_all {p : Char → Bool} {l : List Char}
    (h : ∀ x ∈ l, p x = false) : l.dropWhile p = l := by
  cases l with
  | nil => rfl
  | cons a as => rw [List.dropWhile_cons_of_neg (by simp [h a (by simp)])]

theorem head_dropWhile_false {p : Char → Bool} {l : List Char} {d : Char} {rs : List Char}
    (h : l.dropWhile p = d :: rs) : p d = false := by
  induction l with
  | nil => simp at h
  | cons a as ih =>
    by_cases ha : p a = true
    · rw [List.dropWhile_cons_of_pos ha] at h; exact ih h
    · rw [List.dropWhile_cons_of_neg (by simp [ha])] at h
      injection h with h1 h2
      subst h1
      simpa using ha

theorem trimWs_cons_space (Y : List Char) : trimWs (' ' :: Y) = trimWs Y := by
  rw [trimWs, trimWs, List.dropWhile_cons_of_pos (by simp [isSpaceChar])]

/-- Collapsing ignores a leading whitespace character. -/
theorem collapse_cons_ws {c : Char} (cs : List Char) (h : isSpaceChar c = true) :
    collapseWs (c :: cs) = collapseWs cs := by
  rw [collapseWs, collapseWs, subWs_cons_ws cs h, trimWs_cons_space]
  cases cs with
  | nil => rfl
  | cons d cs2 =>
    by_cases hd : isSpaceChar d = true
    · rw [List.dropWhile_cons_of_pos hd, subWs_cons_ws cs2 hd, trimWs_cons_space]
    · have hd2 : isSpaceChar d = false := by simpa using hd
      rw [List.dropWhile_cons_of_neg (by simp [hd2])]

/-- `subWsRuns` passes a whitespace-free prefix through unchanged. -/
theorem subWs_word_prefix (w r : List Char) (hw : ∀ x ∈ w, isSpaceChar x = false) :
    subWsRuns (w ++ r) = w ++ subWsRuns r := by
  induction w with
  | nil => rfl
  | cons c w2 ih =>
    have hc : isSpaceChar c = false := hw c (by simp)
    rw [List.cons_append, subWs_cons_not_ws _ hc, ih (fun x hx => hw x (by simp [hx]))]
    rfl

/-- Right-trimming passes a nonempty whitespace-free prefix through unchanged. -/
theorem rtrim_word_prefix (c : Char) (w X : List Char)
    (hw : ∀ x ∈ c :: w, isSpaceChar x = false) :
    rtrimWs ((c :: w) ++ X) = (c :: w) ++ rtrimWs X := by
  rw [rtrimWs, List.reverse_append, List.dropWhile_append]
  by_cases he : (X.reverse.dropWhile isSpaceChar).isEmpty
  · rw [if_pos he]
    rw [List.isEmpty_iff] at he
    rw [dropWhile_eq_self_of_all (fun x hx => hw x (List.mem_reverse.mp hx))]
    rw [List.reverse_reverse, rtrimWs, he, List.reverse_nil, List.append_nil]
  · rw [if_neg he, List.reverse_append, List.reverse_reverse, rtrimWs]

theorem rtrim_cons_space (Y : List Char) :
    rtrimWs (' ' :: Y) = if rtrimWs Y = [] then [] else ' ' :: rtrimWs Y := by
  rw [rtrimWs, List.reverse_cons, List.dropWhile_append]
  by_cases he : (Y.reverse.dropWhile isSpaceChar).isEmpty
  · rw [if_pos he]
    rw [List.isEmpty_iff] at he
    rw [if_pos (by rw [rtrimWs, he]; rfl)]
    rw [List.dropWhile_cons_of_pos (by simp [isSpaceChar])]
    rfl
  · rw [if_neg he]
    rw [List.isEmpty_iff] at he
    rw [if_neg (by rw [rtrimWs]; simpa using he)]
    rw [List.reverse_append, rtrimWs]
    rfl

/-- `subWsRuns` of a list that does not start with whitespace does not start
with a space. -/
theorem subWs_dropWhile_no_lead (l : List Char) :
    (subWsRuns (l.dropWhile isSpaceChar)).dropWhile isSpaceChar
      = subWsRuns (l.dropWhile isSpaceChar) := by
  cases hd : l.dropWhile isSpaceChar with
  | nil => rfl
  | cons d cs =>
    have hdw : isSpaceChar d = false := head_dropWhile_false hd
    rw [subWs_cons_not_ws _ hdw, List.dropWhile_cons_of_neg (by simp [hdw])]

/-- Master description of whitespace collapsing: the collapsed string is the
whitespace-separated words joined by single spaces. -/
theorem collapse_eq_joinWords (l : List Char) :
    collapseWs l = joinWords (wsWords l) := by
  induction l using wordsBy.induct isSpaceChar with
  | case1 => rw [wsWords, wordsBy_nil]; rfl
  | case2 c cs h ih =>
    rw [collapse_cons_ws cs h, ih, wsWords, wsWords, wordsBy_cons_pos _ cs h]
  | case3 c cs h ih =>
    have hc : isSpaceChar c = false := by simpa using h
    have htk : ∀ x ∈ c :: cs.takeWhile (fun x => !isSpaceChar x), isSpaceChar x = false := by
      intro x hx
      rcases List.mem_cons.mp hx with hx | hx
      · subst hx; exact hc
      · simpa using List.mem_takeWhile_imp hx
    have hsub : subWsRuns (c :: cs) = (c :: cs.takeWhile (fun x => !isSpaceChar x)) ++
        subWsRuns (cs.dropWhile (fun x => !isSpaceChar x)) := by
      conv_lhs =>
        rw [show c :: cs = (c :: cs.takeWhile (fun x => !isSpaceChar x)) ++
          cs.dropWhile (fun x => !isSpaceChar x) from by
            rw [List.cons_append, List.takeWhile_append_dropWhile]]
      exact subWs_word_prefix _ _ htk
    have htrim : collapseWs (c :: cs) =
        (c :: cs.takeWhile (fun x => !isSpaceChar x)) ++
          rtrimWs (subWsRuns (cs.dropWhile (fun x => !isSpaceChar x))) := by
      rw [collapseWs, hsub, trimWs_eq_rtrim, List.cons_append,
        List.dropWhile_cons_of_neg (by simp [hc]), ← List.cons_append,
        rtrim_word_prefix c _ _ htk]
    rw [htrim, wsWords, wordsBy_cons_neg _ cs hc, joinWords_cons]
    congr 1
    cases hrs : cs.dropWhile (fun x => !isSpaceChar x) with
    | nil =>
      rw [wordsBy_nil, if_pos rfl]
      rfl
    | cons d rs2 =>
      have hdws : isSpaceChar d = true := by
        have := head_dropWhile_false hrs
        simpa using this
      rw [subWs_cons_ws rs2 hdws, rtrim_cons_space]
      have hcol : collapseWs (d :: rs2) =
          rtrimWs (subWsRuns (rs2.dropWhile isSpaceChar)) := by
        rw [collapseWs, subWs_cons_ws rs2 hdws, trimWs_eq_rtrim,
          List.dropWhile_cons_of_pos (by simp [isSpaceChar]),
          subWs_dropWhile_no_lead]
      rw [← hcol]
      rw [hrs] at ih
      rw [ih, wsWords]
      cases hW : wordsBy isSpaceChar (d :: rs2) with
      | nil => simp [joinWords]
      | cons w0 W2 =>
        have hw0 : w0 ≠ [] := wordsBy_ne_nil isSpaceChar (d :: rs2) w0 (by rw [hW]; simp)
        rw [if_neg (by
          rw [joinWords_cons]
          intro hcontra
          exact hw0 (List.append_eq_nil.mp hcontra).1)]
        rw [if_neg (by simp)]

theorem takeWhile_eq_self_of_all {p : Char → Bool} {l : List Char}
    (h : ∀ x ∈ l, p x = true) : l.takeWhile p = l := by
  induction l with
  | nil => rfl
  | cons a as ih =>
    rw [List.takeWhile_cons_of_pos (h a (by simp)), ih (fun x hx => h x (by simp [hx]))]

theorem dropWhile_eq_nil_of_all {p : Char → Bool} {l : List Char}
    (h : ∀ x ∈ l, p x = true) : l.dropWhile p = [] := by
  induction l with
  | nil => rfl
  | cons a as ih =>
    rw [List.dropWhile_cons_of_pos (h a (by simp)), ih (fun x hx => h x (by simp [hx]))]

theorem wordsBy_of_word (p : Char → Bool) (c : Char) (w : List Char)
    (hw : ∀ x ∈ c :: w, p x = false) : wordsBy p (c :: w) = [c :: w] := by
  rw [wordsBy_cons_neg p w (hw c (by simp))]
  rw [takeWhile_eq_self_of_all (fun x hx => by simp [hw x (by simp [hx])])]
  rw [dropWhile_eq_nil_of_all (fun x hx => by simp [hw x (by simp [hx])])]
  rw [wordsBy_nil]

theorem wordsBy_word_append (p : Char → Bool) (c : Char) (w r : List Char) (s : Char)
    (hw : ∀ x ∈ c :: w, p x = false) (hs : p s = true) :
    wordsBy p ((c :: w) ++ s :: r) = (c :: w) :: wordsBy p r := by
  rw [List.cons_append, wordsBy_cons_neg p _ (hw c (by simp))]
  have ht : (w ++ s :: r).takeWhile (fun x => !p x) = w := by
    rw [List.takeWhile_append]
    rw [takeWhile_eq_self_of_all (fun x hx => by simp [hw x (by simp [hx])])]
    simp [List.takeWhile_cons, hs]
  have hd : (w ++ s :: r).dropWhile (fun x => !p x) = s :: r := by
    rw [List.dropWhile_append]
    rw [dropWhile_eq_nil_of_all (fun x hx => by simp [hw x (by simp [hx])])]
    simp [List.dropWhile_cons, hs]
  rw [ht, hd, wordsBy_cons_pos p r hs]

theorem wsWords_ne_nil (l : List Char) : ∀ w ∈ wsWords l, w ≠ [] :=
  wordsBy_ne_nil isSpaceChar l

theorem wsWords_no_ws (l : List Char) : ∀ w ∈ wsWords l, ∀ c ∈ w, isSpaceChar c = false :=
  wordsBy_no_sep isSpaceChar l

/-- `wsWords` recovers the word list from a joined string. -/
theorem wsWords_joinWords (W : List (List Char)) (h1 : ∀ w ∈ W, w ≠ [])
    (h2 : ∀ w ∈ W, ∀ c ∈ w, isSpaceChar c = false) :
    wsWords (joinWords W) = W := by
  induction W with
  | nil =>
    rw [wsWords, show joinWords [] = [] from rfl]
    exact wordsBy_nil _
  | cons w W2 ih =>
    cases W2 with
    | nil =>
      have : joinWords [w] = w := rfl
      rw [this]
      cases hw : w with
      | nil => exact absurd hw (h1 w (by simp))
      | cons c w2 =>
        rw [wsWords, wordsBy_of_word _ c w2 (by rw [← hw]; exact h2 w (by simp))]
    | cons w2 W3 =>
      have hj : joinWords (w :: w2 :: W3) = w ++ ' ' :: joinWords (w2 :: W3) := rfl
      rw [hj]
      cases hw : w with
      | nil => exact absurd hw (h1 w (by simp))
      | cons c wtl =>
        rw [wsWords, wordsBy_word_append isSpaceChar c wtl _ ' '
          (by rw [← hw]; exact h2 w (by simp)) (by simp [isSpaceChar])]
        have ih2 := ih (fun x hx => h1 x (by simp [hx])) (fun x hx => h2 x (by simp [hx]))
        rw [wsWords] at ih2
        rw [ih2]

/-- Whitespace collapsing is idempotent. -/
theorem collapse_idem (l : List Char) : collapseWs (collapseWs l) = collapseWs l := by
  rw [collapse_eq_joinWords l, collapse_eq_joinWords (joinWords (wsWords l)),
    wsWords_joinWords (wsWords l) (wsWords_ne_nil l) (wsWords_no_ws l)]

/-- Words are made of characters of the original string. -/
theorem wordsBy_chars_subset (p : Char → Bool) (l : List Char) :
    ∀ w ∈ wordsBy p l, ∀ c ∈ w, c ∈ l := by
  induction l using wordsBy.induct p with
  | case1 => simp [wordsBy_nil]
  | case2 c cs h ih =>
    rw [wordsBy_cons_pos p cs h]
    intro w hw x hx
    exact List.mem_cons_of_mem c (ih w hw x hx)
  | case3 c cs h ih =>
    rw [wordsBy_cons_neg p cs (by simpa using h)]
    intro w hw x hx
    rcases List.mem_cons.mp hw with hw | hw
    · subst hw
      rcases List.mem_cons.mp hx with hx | hx
      · simp [hx]
      · exact List.mem_cons_of_mem c (List.takeWhile_subset _ hx)
    · exact List.mem_cons_of_mem c (List.dropWhile_subset _ (ih w hw x hx))

theorem mem_joinWords (W : List (List Char)) :
    ∀ c ∈ joinWords W, c = ' ' ∨ ∃ w ∈ W, c ∈ w := by
  induction W with
  | nil => simp [joinWords]
  | cons w W2 ih =>
    rw [joinWords_cons]
    intro c hc
    rcases List.mem_append.mp hc with hc | hc
    · exact Or.inr ⟨w, by simp, hc⟩
    · by_cases hW2 : W2 = []
      · rw [if_pos hW2] at hc; simp at hc
      · rw [if_neg hW2] at hc
        rcases List.mem_cons.mp hc with hc | hc
        · exact Or.inl hc
        · rcases ih c hc with hc | ⟨w2, hw2, hc⟩
          · exact Or.inl hc
          · exact Or.inr ⟨w2, by simp [hw2], hc⟩

/-- Every character of a collapsed string is a space or a character of the
original string. -/
theorem mem_collapse (l : List Char) : ∀ c ∈ collapseWs l, c = ' ' ∨ c ∈ l := by
  rw [collapse_eq_joinWords]
  intro c hc
  rcases mem_joinWords (wsWords l) c hc with hc | ⟨w, hw, hcw⟩
  · exact Or.inl hc
  · exact Or.inr (wordsBy_chars_subset isSpaceChar l w hw c hcw)

/-- Every whitespace character in a collapsed string is a plain space. -/
theorem collapse_ws_is_space (l : List Char) :
    ∀ c ∈ collapseWs l, isSpaceChar c = true → c = ' ' := by
  rw [collapse_eq_joinWords]
  intro c hc hws
  rcases mem_joinWords (wsWords l) c hc with hc | ⟨w, hw, hcw⟩
  · exact hc
  · exact absurd hws (by simp [wsWords_no_ws l w hw c hcw])

/-! ## The `normalize` / `normalize_text` normalizer

`normalize` (tools/review_handbook_quotes.py) and `normalize_text`
(tools/clean_handbook_1923_quotes.py) share the same body: remove soft
hyphens, remove OCR `¬` join markers together with adjacent whitespace
(`re.sub(r"\s*¬\s*", "", s)`), map curly quotes to straight quotes, then
collapse and strip whitespace.  (`normalize_text` ends with
`re.sub(r"(\w)\s+(\w)", lambda m: m.group(0), s)`, which replaces every
match by itself and is the identity.) -/

/-- `re.sub(r"\s*¬\s*", "", s)`: remove each `¬` with the whitespace run
directly before and after it, scanning left to right.  The fuel argument
(`l.length` at the top entry) only bounds the recursion. -/
def removeNotGo : Nat → List Char → List Char
  | 0, l => l
  | fuel + 1, l =>
    if '¬' ∈ l then
      rtrimWs (l.takeWhile (fun c => !(c == '¬'))) ++
        removeNotGo fuel (((l.dropWhile (fun c => !(c == '¬'))).tail).dropWhile isSpaceChar)
    else l

def removeNotSign (l : List Char) : List Char := removeNotGo l.length l

theorem removeNotGo_eq_self {l : List Char} (h : '¬' ∉ l) (fuel : Nat) :
    removeNotGo fuel l = l := by
  cases fuel with
  | zero => rfl
  | succ n => rw [removeNotGo, if_neg h]

theorem removeNotSign_eq_self {l : List Char} (h : '¬' ∉ l) : removeNotSign l = l :=
  removeNotGo_eq_self h l.length

theorem rtrim_subset (l : List Char) : ∀ c ∈ rtrimWs l, c ∈ l := by
  intro c hc
  rw [rtrimWs, List.mem_reverse] at hc
  exact List.mem_reverse.mp (List.dropWhile_subset _ hc)

theorem mem_removeNotGo (fuel : Nat) (l : List Char) : ∀ c ∈ removeNotGo fuel l, c ∈ l := by
  induction fuel generalizing l with
  | zero => intro c hc; exact hc
  | succ n ih =>
    intro c hc
    rw [removeNotGo] at hc
    by_cases h : '¬' ∈ l
    · rw [if_pos h] at hc
      rcases List.mem_append.mp hc with hc | hc
      · exact List.takeWhile_subset _ (rtrim_subset _ c hc)
      · exact List.dropWhile_subset _ (List.tail_subset _ (List.dropWhile_subset _ (ih _ c hc)))
    · rw [if_neg h] at hc
      exact hc

theorem mem_removeNotSign (l : List Char) : ∀ c ∈ removeNotSign l, c ∈ l :=
  mem_removeNotGo l.length l

theorem removeNotGo_no_marker (fuel : Nat) (l : List Char) (hf : l.length ≤ fuel) :
    '¬' ∉ removeNotGo fuel l := by
  induction fuel generalizing l with
  | zero =>
    have : l = [] := List.eq_nil_of_length_eq_zero (by omega)
    subst this
    simp [removeNotGo]
  | succ n ih =>
    rw [removeNotGo]
    by_cases h : '¬' ∈ l
    · rw [if_pos h]
      intro hc
      rcases List.mem_append.mp hc with hc | hc
      · have := List.mem_takeWhile_imp (rtrim_subset _ _ hc)
        simp at this
      · have hne : l.dropWhile (fun c => !(c == '¬')) ≠ [] := by
          intro hnil
          have := List.dropWhile_eq_nil_iff.mp hnil _ h
          simp at this
        have h1 : (l.dropWhile (fun c => !(c == '¬'))).length ≤ l.length :=
          List.IsSuffix.length_le (List.dropWhile_suffix _)
        have h2 : 1 ≤ (l.dropWhile (fun c => !(c == '¬'))).length := by
          cases hcs : l.dropWhile (fun c => !(c == '¬')) with
          | nil => exact absurd hcs hne
          | cons a as => simp
        have h3 : ((((l.dropWhile (fun c => !(c == '¬'))).tail).dropWhile
            isSpaceChar)).length ≤ ((l.dropWhile (fun c => !(c == '¬'))).tail).length :=
          List.IsSuffix.length_le (List.dropWhile_suffix _)
        exact ih _ (by simp only [List.length_tail] at h3 ⊢; omega) hc
    · rw [if_neg h]
      exact h

theorem removeNotSign_no_marker (l : List Char) : '¬' ∉ removeNotSign l :=
  removeNotGo_no_marker l.length l (Nat.le_refl _)

/-- The four curly-quote `str.replace` calls (sources and targets are
disjoint, so the sequence acts pointwise). -/
def mapCurly (l : List Char) : List Char :=
  l.map fun c =>
    if c = '“' then '"' else if c = '”' then '"'
    else if c = '’' then '\'' else if c = '‘' then '\'' else c

theorem map_eq_self_of {f : Char → Char} {l : List Char}
    (h : ∀ x ∈ l, f x = x) : l.map f = l := by
  induction l with
  | nil => rfl
  | cons a as ih =>
    rw [List.map_cons, h a (by simp), ih (fun x hx => h x (by simp [hx]))]

theorem mem_mapCurly (l : List Char) :
    ∀ c ∈ mapCurly l, c = '"' ∨ c = '\'' ∨ c ∈ l := by
  intro c hc
  rw [mapCurly] at hc
  rcases List.mem_map.mp hc with ⟨a, ha, hfa⟩
  by_cases h1 : a = '“'
  · subst h1; simp at hfa; subst hfa; exact Or.inl rfl
  all_goals by_cases h2 : a = '”'
  all_goals try (subst h2; simp [h1] at hfa; subst hfa; exact Or.inl rfl)
  all_goals by_cases h3 : a = '’'
  all_goals try (subst h3; simp [h1, h2] at hfa; subst hfa; exact Or.inr (Or.inl rfl))
  all_goals by_cases h4 : a = '‘'
  all_goals try (subst h4; simp [h1, h2, h3] at hfa; subst hfa; exact Or.inr (Or.inl rfl))
  all_goals
    simp [h1, h2, h3, h4] at hfa
    subst hfa
    exact Or.inr (Or.inr ha)

theorem mapCurly_no_curly (l : List Char) :
    ∀ c ∈ mapCurly l, c ≠ '“' ∧ c ≠ '”' ∧ c ≠ '’' ∧ c ≠ '‘' := by
  intro c hc
  rw [mapCurly] at hc
  rcases List.mem_map.mp hc with ⟨a, _, hfa⟩
  subst hfa
  by_cases h1 : a = '“' <;> by_cases h2 : a = '”' <;> by_cases h3 : a = '’' <;>
    by_cases h4 : a = '‘' <;> simp [h1, h2, h3, h4]

theorem mapCurly_eq_self {l : List Char}
    (h : ∀ c ∈ l, c ≠ '“' ∧ c ≠ '”' ∧ c ≠ '’' ∧ c ≠ '‘') : mapCurly l = l := by
  rw [mapCurly]
  apply map_eq_self_of
  intro x hx
  rcases h x hx with ⟨h1, h2, h3, h4⟩
  simp [h1, h2, h3, h4]

/-- Common body of `normalize` (tools/review_handbook_quotes.py) and
`normalize_text` (tools/clean_handbook_1923_quotes.py). -/
def normCore (s : List Char) : List Char :=
  collapseWs (mapCurly (removeNotSign (s.filter (fun c => !(c == '\u00ad')))))

/-- The shared normalizer body is idempotent. -/
theorem normCore_idem (s : List Char) : normCore (normCore s) = normCore s := by
  have hshy : ∀ c ∈ normCore s, c ≠ '\u00ad' := by
    intro c hc hceq
    subst hceq
    rcases mem_collapse _ _ hc with hc | hc
    · simp at hc
    · rcases mem_mapCurly _ _ hc with h | h | h
      · simp at h
      · simp at h
      · have := List.mem_filter.mp (mem_removeNotSign _ _ h)
        simp at this
  have h1 : (normCore s).filter (fun c => !(c == '\u00ad')) = normCore s := by
    rw [List.filter_eq_self]
    intro a ha
    simp [hshy a ha]
  have hmarker : '¬' ∉ normCore s := by
    intro hc
    rcases mem_collapse _ _ hc with hc | hc
    · simp at hc
    · rcases mem_mapCurly _ _ hc with h | h | h
      · simp at h
      · simp at h
      · exact removeNotSign_no_marker _ h
  have hcurly : ∀ c ∈ normCore s, c ≠ '“' ∧ c ≠ '”' ∧ c ≠ '’' ∧ c ≠ '‘' := by
    intro c hc
    rcases mem_collapse _ _ hc with hc | hc
    · subst hc; decide
    · exact mapCurly_no_curly _ c hc
  rw [normCore, h1, removeNotSign_eq_self hmarker, mapCurly_eq_self hcurly]
  exact collapse_idem _

/-! ## tools/mine_handbook_1923_quotes.py: normalization (`norm`) -/

namespace Mine

/-- Python `str.splitlines` boundary characters (`\r\n` counts as one break). -/
def isLineBreakChar (c : Char) : Bool :=
  c.toNat == 0x0a || c.toNat == 0x0d || c.toNat == 0x0b || c.toNat == 0x0c ||
  c.toNat == 0x1c || c.toNat == 0x1d || c.toNat == 0x1e ||
  c.toNat == 0x85 || c.toNat == 0x2028 || c.toNat == 0x2029

theorem break_is_space {c : Char} (h : isLineBreakChar c = true) : isSpaceChar c = true := by
  simp only [isLineBreakChar, Bool.or_eq_true, beq_iff_eq] at h
  simp only [isSpaceChar, Bool.or_eq_true, beq_iff_eq]
  omega

/-- One step of `LINE_BREAK_RE.sub("\n", s)` (`\n+` → `\n`). -/
def subNlStep (c : Char) (acc : List Char) : List Char :=
  if c = '\n' then (if acc.head? = some '\n' then acc else '\n' :: acc) else c :: acc

def subNlRuns (l : List Char) : List Char := l.foldr subNlStep []

/-- `"\n".join(lines)`. -/
def joinLinesNl : List (List Char) → List Char
  | [] => []
  | [w] => w
  | w :: w2 :: ws => w ++ '\n' :: joinLinesNl (w2 :: ws)

/-- `str.splitlines()` (fuel-bounded recursion, entered with `l.length`). -/
def splitLinesGo : Nat → List Char → List (List Char)
  | 0, _ => []
  | fuel + 1, l =>
    if l = [] then []
    else if (l.dropWhile (fun c => !isLineBreakChar c)) = [] then
      [l.takeWhile (fun c => !isLineBreakChar c)]
    else if (l.dropWhile (fun c => !isLineBreakChar c)).head? = some '\r' ∧
        (l.dropWhile (fun c => !isLineBreakChar c)).tail.head? = some '\n' then
      l.takeWhile (fun c => !isLineBreakChar c) ::
        splitLinesGo fuel (l.dropWhile (fun c => !isLineBreakChar c)).tail.tail
    else
      l.takeWhile (fun c => !isLineBreakChar c) ::
        splitLinesGo fuel (l.dropWhile (fun c => !isLineBreakChar c)).tail

def splitLinesPy (l : List Char) : List (List Char) := splitLinesGo l.length l

/-- `PAGE_FURNITURE_RE` = `^\s*\d+\s*$` under `re.match`: a standalone page
number line (optional whitespace, digits, optional whitespace). -/
def isFurniture (l : List Char) : Bool :=
  !((l.dropWhile isSpaceChar).takeWhile isDigitChar).isEmpty &&
    ((l.dropWhile isSpaceChar).dropWhile isDigitChar).all isSpaceChar

def headIs (p : Char → Bool) : List Char → Bool
  | [] => false
  | d :: _ => p d

/-- `HARD_HYPHEN_BREAK_RE.sub(r"\1\2", s)` with the `\w` / `\s` classes as
parameters: joins `(\w)-\s*\n\s*(\w)` (a word character, a hyphen, a
whitespace run containing a newline, a word character), scanning left to
right and continuing after each replacement (fuel-bounded recursion,
entered with `l.length`). -/
def hhjGo (pw ps : Char → Bool) : Nat → List Char → List Char
  | 0, l => l
  | _ + 1, [] => []
  | fuel + 1, c :: cs =>
    if pw c && (cs.head? == some '-') && ((cs.tail.takeWhile ps).contains '\n') &&
        headIs pw (cs.tail.dropWhile ps) then
      c :: (cs.tail.dropWhile ps).headD ' ' :: hhjGo pw ps fuel (cs.tail.dropWhile ps).tail
    else
      c :: hhjGo pw ps fuel cs

def hhjP (pw ps : Char → Bool) (l : List Char) : List Char := hhjGo pw ps l.length l

def hardHyphenJoin (l : List Char) : List Char := hhjP isWordChar isSpaceChar l

/-- The combining marks of the modelled NFKC fragment: combining grave
U+0300 and combining acute U+0301. -/
def isCombiningMark (c : Char) : Bool :=
  decide (c.toNat = 0x300) || decide (c.toNat = 0x301)

/-- Primary composites of the fragment: an ASCII vowel followed by a
combining grave or acute composes to the Latin-1 precomposed letter (each
pair checked against `unicodedata.normalize("NFKC", ·)`). -/
def composePair (b m : Nat) : Option Nat :=
  if m = 0x301 then
    if b = 97 then some 0xE1
    else if b = 101 then some 0xE9
    else if b = 105 then some 0xED
    else if b = 111 then some 0xF3
    else if b = 117 then some 0xFA
    else if b = 65 then some 0xC1
    else if b = 69 then some 0xC9
    else if b = 73 then some 0xCD
    else if b = 79 then some 0xD3
    else if b = 85 then some 0xDA
    else none
  else if m = 0x300 then
    if b = 97 then some 0xE0
    else if b = 101 then some 0xE8
    else if b = 105 then some 0xEC
    else if b = 111 then some 0xF2
    else if b = 117 then some 0xF9
    else if b = 65 then some 0xC0
    else if b = 69 then some 0xC8
    else if b = 73 then some 0xCC
    else if b = 79 then some 0xD2
    else if b = 85 then some 0xD9
    else none
  else none

/-- NFKC compatibility singletons of the fragment: `µ → μ`, `¹ → 1`,
`² → 2`, `³ → 3`. -/
def nfkcSingle (c : Char) : Char :=
  if c.toNat = 0xB5 then Char.ofNat 0x3BC
  else if c.toNat = 0xB9 then Char.ofNat 49
  else if c.toNat = 0xB2 then Char.ofNat 50
  else if c.toNat = 0xB3 then Char.ofNat 51
  else c

/-- Canonical-composition pass of the fragment: a modelled combining mark
composes with the character directly before it when `composePair` lists the
pair; any other character in between blocks composition (so a soft hyphen
between base and mark keeps them apart, exactly as in Unicode). -/
def composeGo : Nat → List Char → List Char
  | 0, l => l
  | _ + 1, [] => []
  | _ + 1, [c] => [c]
  | fuel + 1, b :: m :: rest =>
    if isCombiningMark m then
      match composePair b.toNat m.toNat with
      | some comp => composeGo fuel (Char.ofNat comp :: rest)
      | none => b :: composeGo fuel (m :: rest)
    else b :: composeGo fuel (m :: rest)

/-- `unicodedata.normalize("NFKC", ·)`, modelled on the explicit fragment
described in the character-class note: compatibility singletons, then
canonical composition of vowel + U+0300/U+0301; identity outside the
fragment. -/
def nfkc (s : List Char) : List Char := composeGo s.length (s.map nfkcSingle)

/-- Stages of `norm` after NFKC and before the final whitespace collapse:
soft-hyphen removal, OCR hyphen-line-break joining, `\r` →
`\n`, newline-run collapsing, standalone-page-number line removal. -/
def normStage (s : List Char) : List Char :=
  joinLinesNl ((splitLinesPy (subNlRuns
    ((hardHyphenJoin (s.filter (fun c => !(c == '\u00ad')))).map
      (fun c => if c = '\r' then '\n' else c)))).filter (fun ln => !isFurniture ln))

/-- The pipeline of `norm` after its first step (NFKC). -/
def normPost (s : List Char) : List Char := collapseWs (normStage s)

/-- `norm` from tools/mine_handbook_1923_quotes.py: NFKC first, then the
soft-hyphen/line-joining stages and the whitespace collapse. -/
def norm (s : List Char) : List Char := normPost (nfkc s)

end Mine

namespace Mine

theorem mem_subNlRuns (l : List Char) : ∀ c ∈ subNlRuns l, c = '\n' ∨ c ∈ l := by
  induction l with
  | nil => simp [subNlRuns]
  | cons a as ih =>
    intro c hc
    have hc2 : c ∈ subNlStep a (subNlRuns as) := hc
    rw [subNlStep] at hc2
    by_cases ha : a = '\n'
    · rw [if_pos ha] at hc2
      by_cases hh : (subNlRuns as).head? = some '\n'
      · rw [if_pos hh] at hc2
        rcases ih c hc2 with h | h
        · exact Or.inl h
        · exact Or.inr (List.mem_cons_of_mem a h)
      · rw [if_neg hh] at hc2
        rcases List.mem_cons.mp hc2 with h | h
        · exact Or.inl h
        · rcases ih c h with h2 | h2
          · exact Or.inl h2
          · exact Or.inr (List.mem_cons_of_mem a h2)
    · rw [if_neg ha] at hc2
      rcases List.mem_cons.mp hc2 with h | h
      · exact Or.inr (by simp [h])
      · rcases ih c h with h2 | h2
        · exact Or.inl h2
        · exact Or.inr (List.mem_cons_of_mem a h2)

theorem subNlRuns_eq_self {l : List Char} (h : '\n' ∉ l) : subNlRuns l = l := by
  induction l with
  | nil => rfl
  | cons a as ih =>
    have ha : a ≠ '\n' := fun he => h (by simp [he])
    have h2 : subNlRuns (a :: as) = subNlStep a (subNlRuns as) := rfl
    rw [h2, subNlStep, if_neg ha, ih (fun hm => h (List.mem_cons_of_mem a hm))]

theorem mem_joinLinesNl (V : List (List Char)) :
    ∀ c ∈ joinLinesNl V, c = '\n' ∨ ∃ w ∈ V, c ∈ w := by
  induction V with
  | nil => simp [joinLinesNl]
  | cons w V2 ih =>
    cases V2 with
    | nil =>
      intro c hc
      exact Or.inr ⟨w, by simp, hc⟩
    | cons w2 Vs =>
      intro c hc
      have hc2 : c ∈ w ++ '\n' :: joinLinesNl (w2 :: Vs) := hc
      rcases List.mem_append.mp hc2 with hc3 | hc3
      · exact Or.inr ⟨w, by simp, hc3⟩
      · rcases List.mem_cons.mp hc3 with hc4 | hc4
        · exact Or.inl hc4
        · rcases ih c hc4 with h | ⟨w3, hw3, hcw⟩
          · exact Or.inl h
          · exact Or.inr ⟨w3, by simp [hw3], hcw⟩

theorem mem_splitLinesGo (fuel : Nat) (l : List Char) :
    ∀ ln ∈ splitLinesGo fuel l, ∀ c ∈ ln, c ∈ l := by
  induction fuel generalizing l with
  | zero => simp [splitLinesGo]
  | succ n ih =>
    intro ln hln c hc
    rw [splitLinesGo] at hln
    by_cases hl : l = []
    · rw [if_pos hl] at hln; simp at hln
    · rw [if_neg hl] at hln
      by_cases hd : (l.dropWhile (fun c => !isLineBreakChar c)) = []
      · rw [if_pos hd] at hln
        rcases List.mem_cons.mp hln with h | h
        · subst h; exact List.takeWhile_subset _ hc
        · simp at h
      · rw [if_neg hd] at hln
        by_cases hrn : (l.dropWhile (fun c => !isLineBreakChar c)).head? = some '\r' ∧
            (l.dropWhile (fun c => !isLineBreakChar c)).tail.head? = some '\n'
        · rw [if_pos hrn] at hln
          rcases List.mem_cons.mp hln with h | h
          · subst h; exact List.takeWhile_subset _ hc
          · exact List.dropWhile_subset _ (List.tail_subset _ (List.tail_subset _
              (ih _ ln h c hc)))
        · rw [if_neg hrn] at hln
          rcases List.mem_cons.mp hln with h | h
          · subst h; exact List.takeWhile_subset _ hc
          · exact List.dropWhile_subset _ (List.tail_subset _ (ih _ ln h c hc))

theorem mem_splitLinesPy (l : List Char) :
    ∀ ln ∈ splitLinesPy l, ∀ c ∈ ln, c ∈ l :=
  mem_splitLinesGo l.length l

theorem splitLines_no_breaks {l : List Char}
    (h : ∀ x ∈ l, isLineBreakChar x = false) :
    splitLinesPy l = if l = [] then [] else [l] := by
  cases hl : l with
  | nil => rfl
  | cons a as =>
    rw [← hl, splitLinesPy]
    have hlen : l.length = as.length + 1 := by rw [hl]; rfl
    rw [hlen, splitLinesGo, if_neg (by rw [hl]; simp)]
    have hdrop : l.dropWhile (fun c => !isLineBreakChar c) = [] :=
      dropWhile_eq_nil_of_all (fun x hx => by simp [h x hx])
    rw [if_pos hdrop, takeWhile_eq_self_of_all (fun x hx => by simp [h x hx]),
      if_neg (by rw [hl]; simp)]

theorem headIs_headD_mem {p : Char → Bool} {X : List Char} (h : headIs p X = true) :
    X.headD ' ' ∈ X := by
  cases X with
  | nil => simp [headIs] at h
  | cons d ds => simp

theorem mem_hhjGo (pw ps : Char → Bool) (fuel : Nat) (l : List Char) :
    ∀ x ∈ hhjGo pw ps fuel l, x ∈ l := by
  induction fuel generalizing l with
  | zero => intro x hx; exact hx
  | succ n ih =>
    intro x hx
    cases l with
    | nil => simp [hhjGo] at hx
    | cons c cs =>
      rw [hhjGo] at hx
      by_cases hcond : (pw c && (cs.head? == some '-') &&
          ((cs.tail.takeWhile ps).contains '\n') && headIs pw (cs.tail.dropWhile ps)) = true
      · rw [if_pos hcond] at hx
        rcases List.mem_cons.mp hx with h | h
        · simp [h]
        · rcases List.mem_cons.mp h with h2 | h2
          · subst h2
            have hmem := headIs_headD_mem (by
              simp only [Bool.and_eq_true] at hcond
              exact hcond.2)
            exact List.mem_cons_of_mem c (List.tail_subset _ (List.dropWhile_subset _ hmem))
          · exact List.mem_cons_of_mem c
              (List.tail_subset _ (List.dropWhile_subset _ (List.tail_subset _ (ih _ x h2))))
      · rw [if_neg hcond] at hx
        rcases List.mem_cons.mp hx with h | h
        · simp [h]
        · exact List.mem_cons_of_mem c (ih _ x h)

theorem mem_hhjP (pw ps : Char → Bool) (l : List Char) :
    ∀ x ∈ hhjP pw ps l, x ∈ l :=
  mem_hhjGo pw ps l.length l

theorem hhjGo_eq_self (pw ps : Char → Bool) (fuel : Nat) {l : List Char}
    (h : '\n' ∉ l) : hhjGo pw ps fuel l = l := by
  induction fuel generalizing l with
  | zero => rfl
  | succ n ih =>
    cases l with
    | nil => rfl
    | cons c cs =>
      rw [hhjGo]
      have hcond : ¬(pw c && (cs.head? == some '-') &&
          ((cs.tail.takeWhile ps).contains '\n') &&
          headIs pw (cs.tail.dropWhile ps)) = true := by
        intro hcond
        simp only [Bool.and_eq_true] at hcond
        have hmem : '\n' ∈ cs.tail.takeWhile ps := List.mem_of_elem_eq_true hcond.1.2
        exact h (List.mem_cons_of_mem c (List.tail_subset _ (List.takeWhile_subset _ hmem)))
      rw [if_neg hcond, ih (fun hm => h (List.mem_cons_of_mem c hm))]

theorem hhjP_eq_self (pw ps : Char → Bool) {l : List Char} (h : '\n' ∉ l) :
    hhjP pw ps l = l :=
  hhjGo_eq_self pw ps l.length h

theorem mem_normStage (s : List Char) :
    ∀ c ∈ normStage s, c = '\n' ∨ c ∈ s.filter (fun c => !(c == '\u00ad')) := by
  intro c hc
  rw [normStage] at hc
  rcases mem_joinLinesNl _ c hc with h | ⟨ln, hln, hcln⟩
  · exact Or.inl h
  · have hln2 := List.mem_filter.mp hln
    have hc2 := mem_splitLinesPy _ ln hln2.1 c hcln
    rcases mem_subNlRuns _ c hc2 with h | h
    · exact Or.inl h
    · rcases List.mem_map.mp h with ⟨a, ha, hfa⟩
      by_cases hr : a = '\r'
      · rw [hr] at hfa; simp at hfa; exact Or.inl hfa.symm
      · rw [if_neg hr] at hfa
        subst hfa
        exact Or.inr (mem_hhjP _ _ _ a ha)

end Mine

theorem wordsBy_append_ws (p : Char → Bool) {s : Char} (hs : p s = true)
    (a b : List Char) : wordsBy p (a ++ s :: b) = wordsBy p a ++ wordsBy p b := by
  induction a using wordsBy.induct p with
  | case1 =>
    rw [List.nil_append, wordsBy_cons_pos p b hs, wordsBy_nil, List.nil_append]
  | case2 c cs h ih =>
    rw [List.cons_append, wordsBy_cons_pos p _ h, wordsBy_cons_pos p cs h]
    exact ih
  | case3 c cs h ih =>
    have hc : p c = false := by simpa using h
    rw [List.cons_append, wordsBy_cons_neg p _ hc, wordsBy_cons_neg p cs hc]
    by_cases hlen : (cs.takeWhile (fun x => !p x)).length = cs.length
    · have htake : cs.takeWhile (fun x => !p x) = cs :=
        List.IsPrefix.eq_of_length (List.takeWhile_prefix _) hlen
      have hdrop : cs.dropWhile (fun x => !p x) = [] := by
        have hlen2 : cs.length = (cs.takeWhile (fun x => !p x)).length +
            (cs.dropWhile (fun x => !p x)).length := by
          conv_lhs => rw [← List.takeWhile_append_dropWhile (fun x => !p x) cs]
          rw [List.length_append]
        rw [hlen] at hlen2
        exact List.eq_nil_of_length_eq_zero (by omega)
      rw [List.takeWhile_append, if_pos hlen, htake,
        List.takeWhile_cons_of_neg (by simp [hs]), List.append_nil]
      rw [List.dropWhile_append, hdrop]
      simp only [List.isEmpty_nil, if_true]
      rw [List.dropWhile_cons_of_neg (by simp [hs]), wordsBy_cons_pos p b hs,
        wordsBy_nil]
      rfl
    · have hne : ¬(cs.dropWhile (fun x => !p x)).isEmpty := by
        intro hemp
        rw [List.isEmpty_iff] at hemp
        have := List.takeWhile_append_dropWhile (fun x => !p x) cs
        rw [hemp, List.append_nil] at this
        exact hlen (by rw [this])
      rw [List.takeWhile_append, if_neg hlen]
      rw [List.dropWhile_append, if_neg hne, ih]
      rw [List.cons_append]

theorem wordsBy_eq_nil_iff (p : Char → Bool) (l : List Char) :
    wordsBy p l = [] ↔ ∀ x ∈ l, p x = true := by
  induction l with
  | nil => simp [wordsBy_nil]
  | cons c cs ih =>
    by_cases hc : p c = true
    · rw [wordsBy_cons_pos p cs hc, ih]
      constructor
      · intro h x hx
        rcases List.mem_cons.mp hx with hx | hx
        · subst hx; exact hc
        · exact h x hx
      · intro h x hx
        exact h x (by simp [hx])
    · rw [wordsBy_cons_neg p cs (by simpa using hc)]
      constructor
      · intro h; simp at h
      · intro h
        exact absurd (h c (by simp)) hc

namespace Mine

theorem wsWords_joinLinesNl (V : List (List Char)) :
    wsWords (joinLinesNl V) = (V.map wsWords).flatten := by
  induction V with
  | nil =>
    rw [show joinLinesNl [] = [] from rfl, wsWords, wordsBy_nil]
    simp
  | cons L V2 ih =>
    cases V2 with
    | nil =>
      rw [show joinLinesNl [L] = L from rfl]
      simp
    | cons L2 Vs =>
      rw [show joinLinesNl (L :: L2 :: Vs) = L ++ '\n' :: joinLinesNl (L2 :: Vs) from rfl]
      rw [wsWords, wordsBy_append_ws isSpaceChar (by decide) L (joinLinesNl (L2 :: Vs))]
      rw [show wordsBy isSpaceChar (joinLinesNl (L2 :: Vs)) = wsWords (joinLinesNl (L2 :: Vs))
        from rfl, ih]
      simp [wsWords]

theorem flatten_eq_singleton {α : Type} {X : List (List α)} {a : α}
    (h : X.flatten = [a]) : ∃ x ∈ X, x = [a] := by
  induction X with
  | nil => simp at h
  | cons x0 X2 ih =>
    rw [List.flatten_cons] at h
    cases hx0 : x0 with
    | nil =>
      rw [hx0] at h
      simp only [List.nil_append] at h
      rcases ih h with ⟨x, hx, hxa⟩
      exact ⟨x, by simp [hx], hxa⟩
    | cons b bs =>
      rw [hx0, List.cons_append] at h
      injection h with h1 h2
      subst h1
      rcases List.append_eq_nil.mp h2 with ⟨hbs, _⟩
      exact ⟨x0, by rw [hx0]; exact List.mem_cons_self _ _, by rw [hx0, hbs]⟩

theorem takeWhile_nil_of_head_false {p : Char → Bool} {l : List Char}
    (h : ∀ x ∈ l, p x = false) : l.takeWhile p = [] := by
  cases l with
  | nil => rfl
  | cons a as => rw [List.takeWhile_cons_of_neg (by simp [h a (by simp)])]

/-- A line whose whitespace-separated words are a single all-digit word is
page furniture. -/
theorem furniture_of_digit_word {L w : List Char} (hW : wsWords L = [w])
    (hd : w.all isDigitChar = true) : isFurniture L = true := by
  induction L using wordsBy.induct isSpaceChar with
  | case1 =>
    rw [wsWords, wordsBy_nil] at hW
    simp at hW
  | case2 c cs h ih =>
    rw [wsWords, wordsBy_cons_pos _ cs h] at hW
    have := ih (by rw [wsWords]; exact hW)
    rw [isFurniture] at this ⊢
    rw [List.dropWhile_cons_of_pos h]
    exact this
  | case3 c cs h ih =>
    have hc : isSpaceChar c = false := by simpa using h
    rw [wsWords, wordsBy_cons_neg _ cs hc] at hW
    injection hW with hW1 hW2
    have hrs : ∀ x ∈ cs.dropWhile (fun x => !isSpaceChar x), isSpaceChar x = true := by
      have := (wordsBy_eq_nil_iff isSpaceChar _).mp hW2
      intro x hx
      simpa using this x hx
    have hwall : ∀ x ∈ c :: cs.takeWhile (fun x => !isSpaceChar x), isDigitChar x = true := by
      rw [hW1]
      intro x hx
      exact List.all_eq_true.mp hd x hx
    rw [isFurniture, List.dropWhile_cons_of_neg (by simp [hc])]
    have hsplit : c :: cs = (c :: cs.takeWhile (fun x => !isSpaceChar x)) ++
        cs.dropWhile (fun x => !isSpaceChar x) := by
      rw [List.cons_append, List.takeWhile_append_dropWhile]
    rw [hsplit]
    have h1 : ((c :: cs.takeWhile (fun x => !isSpaceChar x)) ++
        cs.dropWhile (fun x => !isSpaceChar x)).takeWhile isDigitChar =
        (c :: cs.takeWhile (fun x => !isSpaceChar x)) ++
          (cs.dropWhile (fun x => !isSpaceChar x)).takeWhile isDigitChar := by
      rw [List.takeWhile_append]
      rw [takeWhile_eq_self_of_all hwall]
      simp
    have h2 : (cs.dropWhile (fun x => !isSpaceChar x)).takeWhile isDigitChar = [] :=
      takeWhile_nil_of_head_false (fun x hx => space_not_digit (hrs x hx))
    have h3 : ((c :: cs.takeWhile (fun x => !isSpaceChar x)) ++
        cs.dropWhile (fun x => !isSpaceChar x)).dropWhile isDigitChar =
        cs.dropWhile (fun x => !isSpaceChar x) := by
      rw [List.dropWhile_append]
      rw [dropWhile_eq_nil_of_all hwall]
      simp [dropWhile_eq_self_of_all (fun x hx => space_not_digit (hrs x hx))]
    rw [h1, h2, h3, List.append_nil]
    simp only [Bool.and_eq_true]
    constructor
    · simp
    · exact List.all_eq_true.mpr hrs

/-- If the join of nonempty whitespace-free words is page furniture, there is
exactly one word and it is all digits. -/
theorem furniture_joinWords {W : List (List Char)} (h1 : ∀ w ∈ W, w ≠ [])
    (h2 : ∀ w ∈ W, ∀ c ∈ w, isSpaceChar c = false)
    (hf : isFurniture (joinWords W) = true) :
    ∃ w, W = [w] ∧ w.all isDigitChar = true := by
  cases W with
  | nil =>
    rw [show joinWords [] = [] from rfl] at hf
    simp [isFurniture] at hf
  | cons w W2 =>
    cases W2 with
    | nil =>
      refine ⟨w, rfl, ?_⟩
      rw [show joinWords [w] = w from rfl] at hf
      have hwf : ∀ c ∈ w, isSpaceChar c = false := h2 w (by simp)
      rw [isFurniture, dropWhile_eq_self_of_all hwf] at hf
      simp only [Bool.and_eq_true] at hf
      have hrest : w.dropWhile isDigitChar = [] := by
        cases hr : w.dropWhile isDigitChar with
        | nil => rfl
        | cons a as =>
          have ha : a ∈ w := List.dropWhile_subset _ (by rw [hr]; simp)
          have := List.all_eq_true.mp hf.2 a (by rw [hr]; simp)
          rw [hwf a ha] at this
          simp at this
      have : w.takeWhile isDigitChar = w := by
        conv_rhs => rw [← List.takeWhile_append_dropWhile isDigitChar w]
        rw [hrest, List.append_nil]
      rw [← this]
      exact List.all_takeWhile
    | cons w2 Ws =>
      exfalso
      rw [show joinWords (w :: w2 :: Ws) = w ++ ' ' :: joinWords (w2 :: Ws) from rfl] at hf
      have hw : w ≠ [] := h1 w (by simp)
      have hwf : ∀ c ∈ w, isSpaceChar c = false := h2 w (by simp)
      cases hwc : w with
      | nil => exact hw hwc
      | cons c wtl =>
      rw [hwc] at hf
      rw [isFurniture, List.cons_append,
        List.dropWhile_cons_of_neg (by simp [hwf c (by rw [hwc]; simp)])] at hf
      simp only [Bool.and_eq_true] at hf
      have hw2 : w2 ≠ [] := h1 w2 (by simp)
      cases hw2c : w2 with
      | nil => exact hw2 hw2c
      | cons e2 w2tl =>
      have hjc : joinWords (w2 :: Ws) = w2 ++
          (if Ws = [] then [] else ' ' :: joinWords Ws) := joinWords_cons w2 Ws
      have he2 : e2 ∈ ' ' :: joinWords (w2 :: Ws) := by
        rw [hjc, hw2c]
        simp
      have hsuffix : ∃ pre, (c :: (wtl ++ ' ' :: joinWords (w2 :: Ws))).dropWhile isDigitChar =
          pre ++ ' ' :: joinWords (w2 :: Ws) := by
        by_cases hcd : isDigitChar c = true
        · rw [List.dropWhile_cons_of_pos hcd, List.dropWhile_append]
          by_cases hemp : (wtl.dropWhile isDigitChar).isEmpty
          · rw [if_pos hemp]
            refine ⟨[], ?_⟩
            rw [List.dropWhile_cons_of_neg (by simp [isDigitChar]), List.nil_append]
          · rw [if_neg hemp]
            exact ⟨wtl.dropWhile isDigitChar, rfl⟩
        · rw [List.dropWhile_cons_of_neg (by simp at hcd; simp [hcd])]
          exact ⟨c :: wtl, by simp⟩
      rcases hsuffix with ⟨pre, hpre⟩
      have he2mem : e2 ∈ (c :: (wtl ++ ' ' :: joinWords (w2 :: Ws))).dropWhile isDigitChar := by
        rw [hpre]
        exact List.mem_append_right pre he2
      have := List.all_eq_true.mp hf.2 e2 he2mem
      have he2ws : isSpaceChar e2 = false := h2 w2 (by simp) e2 (by rw [hw2c]; simp)
      rw [he2ws] at this
      simp at this

/-- The post-NFKC pipeline never returns a standalone page number (nonempty all-digit text):
those lines are dropped before collapsing. -/
theorem normPost_not_furniture (s : List Char) : isFurniture (normPost s) = false := by
  by_cases hf : isFurniture (normPost s) = true
  · exfalso
    rw [normPost, collapse_eq_joinWords] at hf
    rcases furniture_joinWords (wsWords_ne_nil _) (wsWords_no_ws _) hf with ⟨w, hW, hwd⟩
    rw [normStage, wsWords_joinLinesNl] at hW
    rcases flatten_eq_singleton hW with ⟨x, hx, hxw⟩
    rcases List.mem_map.mp hx with ⟨L, hL, hLx⟩
    have hLfurn : isFurniture L = true := furniture_of_digit_word (by rw [hLx, hxw]) hwd
    have := (List.mem_filter.mp hL).2
    rw [hLfurn] at this
    simp at this
  · simpa using hf

end Mine

namespace Mine

/-- The post-NFKC pipeline (soft-hyphen removal through whitespace collapse)
is idempotent. -/
theorem normPost_idem (s : List Char) : normPost (normPost s) = normPost s := by
  have hws : ∀ c ∈ normPost s, isSpaceChar c = true → c = ' ' := by
    intro c hc hcs
    exact collapse_ws_is_space (normStage s) c hc hcs
  have hnl : '\n' ∉ normPost s := by
    intro h
    have := hws '\n' h (by decide)
    exact absurd this (by decide)
  have hcr : '\r' ∉ normPost s := by
    intro h
    have := hws '\r' h (by decide)
    exact absurd this (by decide)
  have hshy : '\u00ad' ∉ normPost s := by
    intro h
    rw [normPost] at h
    rcases mem_collapse _ _ h with h2 | h2
    · exact absurd h2 (by decide)
    · rcases mem_normStage s _ h2 with h3 | h3
      · exact absurd h3 (by decide)
      · have := (List.mem_filter.mp h3).2
        simp at this
  have hnobreak : ∀ x ∈ normPost s, isLineBreakChar x = false := by
    intro x hx
    by_cases hb : isLineBreakChar x = true
    · have hxs := hws x hx (break_is_space hb)
      subst hxs
      exact absurd hb (by decide)
    · simpa using hb
  have hfilter : (normPost s).filter (fun c => !(c == '\u00ad')) = normPost s := by
    rw [List.filter_eq_self]
    intro a ha
    have hne : a ≠ '\u00ad' := fun he => hshy (he ▸ ha)
    simp [hne]
  rw [show normPost (normPost s) = collapseWs (normStage (normPost s)) from rfl]
  rw [normStage, hfilter, hardHyphenJoin, hhjP_eq_self _ _ hnl]
  rw [map_eq_self_of (fun x hx => by
    have hne : x ≠ '\r' := fun he => hcr (he ▸ hx)
    simp [hne])]
  rw [subNlRuns_eq_self hnl, splitLines_no_breaks hnobreak]
  by_cases hempty : normPost s = []
  · rw [if_pos hempty, List.filter_nil, show joinLinesNl [] = [] from rfl, hempty]
    rfl
  · rw [if_neg hempty]
    rw [show ([normPost s]).filter (fun ln => !isFurniture ln) = [normPost s] from by
      simp [normPost_not_furniture s]]
    rw [show joinLinesNl [normPost s] = normPost s from rfl]
    rw [normPost]
    exact collapse_idem _

end Mine

theorem normCore_no_shy (s : List Char) : '\u00ad' ∉ normCore s := by
  intro h
  rcases mem_collapse _ _ h with h2 | h2
  · exact absurd h2 (by decide)
  · rcases mem_mapCurly _ _ h2 with h3 | h3 | h3
    · exact absurd h3 (by decide)
    · exact absurd h3 (by decide)
    · have := List.mem_filter.mp (mem_removeNotSign _ _ h3)
      simp at this

theorem normCore_no_marker (s : List Char) : '¬' ∉ normCore s := by
  intro h
  rcases mem_collapse _ _ h with h2 | h2
  · exact absurd h2 (by decide)
  · rcases mem_mapCurly _ _ h2 with h3 | h3 | h3
    · exact absurd h3 (by decide)
    · exact absurd h3 (by decide)
    · exact removeNotSign_no_marker _ h3

theorem normCore_no_curly (s : List Char) :
    ∀ c ∈ normCore s, c ≠ '“' ∧ c ≠ '”' ∧ c ≠ '’' ∧ c ≠ '‘' := by
  intro c hc
  rcases mem_collapse _ _ hc with h2 | h2
  · subst h2; decide
  · exact mapCurly_no_curly _ c h2

theorem normCore_shape (s : List Char) :
    ∃ W, (∀ w ∈ W, w ≠ []) ∧ (∀ w ∈ W, ∀ c ∈ w, isSpaceChar c = false) ∧
      normCore s = joinWords W := by
  refine ⟨wsWords (mapCurly (removeNotSign (s.filter (fun c => !(c == '\u00ad'))))),
    wsWords_ne_nil _, wsWords_no_ws _, ?_⟩
  rw [normCore, collapse_eq_joinWords]

namespace Review

/-- `normalize` from tools/review_handbook_quotes.py: remove soft hyphens,
remove `¬` markers with adjacent whitespace, map curly quotes to straight
quotes, collapse and strip whitespace. -/
def normalize (s : List Char) : List Char := normCore s

end Review

namespace Clean

/-- `normalize_text` from tools/clean_handbook_1923_quotes.py (missing input
treated as the empty string via `(s or "")`; its final
`re.sub(r"(\w)\s+(\w)", lambda m: m.group(0), s)` replaces every match by
itself and is the identity). -/
def normalize_text (s : Option (List Char)) : List Char := normCore (s.getD [])

end Clean

namespace Mine

theorem composeGo_eq_self (fuel : Nat) (l : List Char)
    (h : ∀ c ∈ l, isCombiningMark c = false) : composeGo fuel l = l := by
  induction fuel generalizing l with
  | zero => rfl
  | succ n ih =>
    rcases l with _ | ⟨b, l2⟩
    · rfl
    · rcases l2 with _ | ⟨m, rest⟩
      · rfl
      · have hm : isCombiningMark m = false := h m (by simp)
        rw [composeGo, if_neg (by simp [hm]),
          ih (m :: rest) (fun c hc => h c (List.mem_cons_of_mem b hc))]

theorem nfkcSingle_eq_self (c : Char) (h : c.toNat < 128) : nfkcSingle c = c := by
  rw [nfkcSingle, if_neg (by omega), if_neg (by omega), if_neg (by omega),
    if_neg (by omega)]

theorem nfkc_eq_self_of_ascii (s : List Char) (h : ∀ c ∈ s, c.toNat < 128) :
    nfkc s = s := by
  rw [nfkc, map_eq_self_of (fun c hc => nfkcSingle_eq_self c (h c hc))]
  refine composeGo_eq_self s.length s ?_
  intro c hc
  have hcn := h c hc
  simp only [isCombiningMark, Bool.or_eq_false_iff, decide_eq_false_iff_not]
  omega

/-- The post-NFKC pipeline maps ASCII input to ASCII output (its only new
characters are spaces and newlines). -/
theorem normPost_ascii (s : List Char) (h : ∀ c ∈ s, c.toNat < 128) :
    ∀ c ∈ normPost s, c.toNat < 128 := by
  intro c hc
  rw [normPost] at hc
  rcases mem_collapse _ _ hc with h2 | h2
  · rw [h2]; decide
  · rcases mem_normStage s c h2 with h3 | h3
    · rw [h3]; decide
    · exact h c (List.mem_filter.mp h3).1

/-- `norm` is idempotent on ASCII input: NFKC is the identity there (both in
Unicode and in the model), so `norm` reduces to the idempotent post-NFKC
pipeline. -/
theorem norm_idem_ascii (s : List Char) (h : ∀ c ∈ s, c.toNat < 128) :
    norm (norm s) = norm s := by
  have h1 : norm s = normPost s := by
    rw [norm, nfkc_eq_self_of_ascii s h]
  rw [h1, norm, nfkc_eq_self_of_ascii _ (normPost_ascii s h), normPost_idem]

/-- The non-idempotence input: `e`, soft hyphen, combining acute.  The soft
hyphen blocks NFKC composition on the first pass; its removal lets the
second pass compose (verified against CPython). -/
def shyAcute : List Char := ['e', '\u00ad', Char.ofNat 0x301]

end Mine

/-- C3 (amended): `normalize` (tools/review_handbook_quotes.py) is idempotent
for every string, and `norm` (tools/mine_handbook_1923_quotes.py) is
idempotent on ASCII input; but `norm` is NOT idempotent in general — its
first step `unicodedata.normalize("NFKC", ·)` interacts with the subsequent
soft-hyphen removal (see the counterexample). -/
theorem C3_idempotence_amended :
    (∀ s : List Char, Review.normalize (Review.normalize s) = Review.normalize s) ∧
    (∀ s : List Char, (∀ c ∈ s, c.toNat < 128) →
      Mine.norm (Mine.norm s) = Mine.norm s) :=
  ⟨fun s => normCore_idem s, Mine.norm_idem_ascii⟩

/-- C3 counterexample: on `e` + soft hyphen + combining acute (U+0301), the
soft hyphen blocks NFKC composition and is then removed, so a second `norm`
composes what the first could not: `norm (norm s) ≠ norm s`. -/
theorem C3_counterexample :
    Mine.norm Mine.shyAcute = ['e', Char.ofNat 0x301] ∧
    Mine.norm (Mine.norm Mine.shyAcute) = [Char.ofNat 0xE9] ∧
    Mine.norm (Mine.norm Mine.shyAcute) ≠ Mine.norm Mine.shyAcute :=
  ⟨by decide, by decide, by decide⟩

/-- C3 witness: the amended theorem applied at a concrete ASCII string. -/
theorem C3_witness :
    Mine.norm (Mine.norm "We  believe.".toList) = Mine.norm "We  believe.".toList :=
  C3_idempotence_amended.2 "We  believe.".toList (by decide)

/-- C7 (amended): for every input — a missing one is treated as the empty
string — `normalize_text` returns a whitespace-collapsed single-line string
(a join of nonempty whitespace-free words by single spaces) with soft
hyphens removed, OCR `¬` join markers removed, and curly quotes mapped to
straight quotes; as a total function it never raises.  Stray leading and
trailing quote characters are NOT trimmed by the normalizer (that happens
only in `strip_boilerplate`, one quote character per side at most). -/
theorem C7_normalize_text_contract (s : Option (List Char)) :
    (∃ W, (∀ w ∈ W, w ≠ []) ∧ (∀ w ∈ W, ∀ c ∈ w, isSpaceChar c = false) ∧
      Clean.normalize_text s = joinWords W) ∧
    '\u00ad' ∉ Clean.normalize_text s ∧
    '¬' ∉ Clean.normalize_text s ∧
    (∀ c ∈ Clean.normalize_text s, c ≠ '“' ∧ c ≠ '”' ∧ c ≠ '’' ∧ c ≠ '‘') ∧
    Clean.normalize_text none = [] :=
  ⟨normCore_shape _, normCore_no_shy _, normCore_no_marker _, normCore_no_curly _, rfl⟩

/-- C7 witness: the contract applied at a concrete input. -/
theorem C7_witness : '¬' ∉ Clean.normalize_text (some ("a ¬ b".toList)) :=
  (C7_normalize_text_contract (some ("a ¬ b".toList))).2.2.1

/-! ## tools/mine_handbook_1923_quotes.py: scoring and extraction -/

namespace Mine

/-- Python `str.lower()` (ASCII model). -/
def toLowerChar (c : Char) : Char :=
  if 65 ≤ c.toNat ∧ c.toNat ≤ 90 then Char.ofNat (c.toNat + 32) else c

def lowerStr (l : List Char) : List Char := l.map toLowerChar

/-- Python `needle in hay` (contiguous substring test). -/
def containsSub (needle : List Char) : List Char → Bool
  | [] => needle.isEmpty
  | c :: t => needle.isPrefixOf (c :: t) || containsSub needle t

def KW_TRINITY : List (List Char) :=
  ["trinity", "father", "son", "holy spirit", "three persons", "triune"].map String.toList
def KW_JUSTIFICATION : List (List Char) :=
  ["justify", "justification", "righteousness imputed", "accounted righteous"].map String.toList
def KW_REGENERATION : List (List Char) :=
  ["regenerat", "new birth", "born again"].map String.toList
def KW_REPENT_FAITH : List (List Char) :=
  ["repent", "repentance", "faith", "believe", "conversion"].map String.toList
def KW_CONTINUANCE : List (List Char) :=
  ["continue", "persever", "keep", "abide", "backslid", "apostasy", "endure"].map String.toList
def KW_SANCTIFICATION : List (List Char) :=
  ["sanctif", "holiness", "entire sanctification", "perfect love"].map String.toList
def KW_ATONEMENT : List (List Char) :=
  ["atonement", "redeem", "redemption", "propitiation", "reconcile", "sacrifice"].map String.toList
def KW_FALL : List (List Char) :=
  ["fall", "deprav", "sinful", "guilty", "corrupt", "lost"].map String.toList
def KW_SCRIPTURE : List (List Char) :=
  ["scripture", "bible", "inspiration", "revelation", "testament"].map String.toList
def KW_LAST_THINGS : List (List Char) :=
  ["resurrection", "judgment", "eternal", "immortal", "heaven", "hell", "second coming"].map
    String.toList

/-- `contains_any`. -/
def contains_any (text : List Char) (needles : List (List Char)) : Bool :=
  needles.any (fun n => containsSub n (lowerStr text))

/-- `CHAPTER_TO_DOCTRINE_DEFAULT` (`dict.get` semantics). -/
def CHAPTER_TO_DOCTRINE_DEFAULT : Nat → Option Nat
  | 2 => some 1
  | 3 => some 2
  | 4 => some 4
  | 5 => some 5
  | 6 => some 6
  | 7 => some 3
  | 8 => some 7
  | 9 => some 9
  | 10 => some 10
  | 11 => some 11
  | _ => none

/-- `doctrine_from_chapter_and_text`. -/
def doctrine_from_chapter_and_text (chapter : Option Nat) (text : List Char) : Option Nat :=
  match chapter with
  | none => none
  | some ch =>
    match CHAPTER_TO_DOCTRINE_DEFAULT ch with
    | none => none
    | some base =>
      if ch = 3 ∧ contains_any text KW_TRINITY = true then some 3
      else if ch = 8 then
        if contains_any text KW_JUSTIFICATION = true then some 8
        else if contains_any text KW_REGENERATION = true ∨
            contains_any text KW_REPENT_FAITH = true then some 7
        else some 7
      else if ch = 9 ∧ contains_any text KW_CONTINUANCE = true then some 9
      else some base

/-- `BOOKS`. -/
def BOOKS : List (List Char) :=
  ["Genesis", "Exodus", "Leviticus", "Numbers", "Deuteronomy", "Joshua", "Judges", "Ruth",
   "1 Samuel", "2 Samuel", "1 Kings", "2 Kings", "1 Chronicles", "2 Chronicles", "Ezra",
   "Nehemiah", "Esther", "Job", "Psalms", "Psalm", "Proverbs", "Ecclesiastes",
   "Song of Solomon", "Isaiah", "Jeremiah", "Lamentations", "Ezekiel", "Daniel",
   "Hosea", "Joel", "Amos", "Obadiah", "Jonah", "Micah", "Nahum", "Habakkuk", "Zephaniah",
   "Haggai", "Zechariah", "Malachi",
   "Matthew", "Mark", "Luke", "John", "Acts", "Romans", "1 Corinthians", "2 Corinthians",
   "Galatians", "Ephesians", "Philippians", "Colossians", "1 Thessalonians",
   "2 Thessalonians", "1 Timothy", "2 Timothy", "Titus", "Philemon", "Hebrews", "James",
   "1 Peter", "2 Peter", "1 John", "2 John", "3 John", "Jude", "Revelation"].map
    String.toList

/-- Case-insensitive literal prefix removal. -/
def dropCiPrefix : List Char → List Char → Option (List Char)
  | [], l => some l
  | _ :: _, [] => none
  | b :: bs, c :: cs => if toLowerChar b = toLowerChar c then dropCiPrefix bs cs else none

/-- `\b` immediately after a match: next character absent or not `\w`. -/
def notWordStart : List Char → Bool
  | [] => true
  | c :: _ => !isWordChar c

/-- One alternative of `BOOK_RE` at the current position: the (escaped) book
name case-insensitively, followed by a word boundary. -/
def matchBookName (b l : List Char) : Bool :=
  match dropCiPrefix b l with
  | some rest => notWordStart rest
  | none => false

/-- `(?:[1-3]\s*)?(?:BOOKS)\b` at the current position. -/
def matchBookAt (l : List Char) : Bool :=
  BOOKS.any (fun b => matchBookName b l) ||
  (match l with
   | d :: rest =>
     if d = '1' ∨ d = '2' ∨ d = '3' then
       BOOKS.any (fun b => matchBookName b (rest.dropWhile isSpaceChar))
     else false
   | [] => false)

/-- `\d{1,3}:\d{1,3}\b` at the current position. -/
def matchVerseAt (l : List Char) : Bool :=
  match l.dropWhile isDigitChar with
  | ':' :: rest2 =>
    decide (1 ≤ (l.takeWhile isDigitChar).length) &&
    decide ((l.takeWhile isDigitChar).length ≤ 3) &&
    decide (1 ≤ (rest2.takeWhile isDigitChar).length) &&
    decide ((rest2.takeWhile isDigitChar).length ≤ 3) &&
    notWordStart (rest2.dropWhile isDigitChar)
  | _ => false

/-- `SCRIPTUREISH_RE.search`: scan all positions, requiring a word boundary
before the match (both alternatives begin with a word character). -/
def scriptureishGo (prevWord : Bool) : List Char → Bool
  | [] => false
  | c :: cs =>
    (if prevWord then false else matchVerseAt (c :: cs) || matchBookAt (c :: cs)) ||
    scriptureishGo (isWordChar c) cs

def SCRIPTUREISH (l : List Char) : Bool := scriptureishGo false l

/-- `score_excerpt`, with the float scores modelled in exact hundredths
(`1.8` → `180`, `0.35` → `35`, `2.5` → `250`, `0.6` → `60`). -/
def score_excerpt (doctrine : Nat) (excerpt : List Char) : Int :=
  let t := lowerStr excerpt
  let boosts : List (List Char) :=
    match doctrine with
    | 1 => KW_SCRIPTURE
    | 2 => ["one god", "god", "creator", "sovereign", "holy"].map String.toList
    | 3 => KW_TRINITY
    | 4 => ["jesus", "christ", "incarn", "deity", "human", "god and man"].map String.toList
    | 5 => KW_FALL
    | 6 => KW_ATONEMENT
    | 7 => KW_REPENT_FAITH ++ KW_REGENERATION
    | 8 => KW_JUSTIFICATION
    | 9 => KW_CONTINUANCE
    | 10 => KW_SANCTIFICATION
    | 11 => KW_LAST_THINGS
    | _ => []
  (if (["we believe", "therefore", "means", "signifies", "is the", "are the", "must",
        "cannot"].map String.toList).any (fun k => containsSub k t) then (180 : Int) else 0) +
  35 * ((boosts.filter (fun kw => containsSub kw t)).length : Int) -
  (if SCRIPTUREISH excerpt then (250 : Int) else 0) -
  (if excerpt.length < 110 then (60 : Int) else 0) -
  (if 320 < excerpt.length then (60 : Int) else 0)

end Mine

namespace Mine

def isSentEnd (c : Char) : Bool := c == '.' || c == '!' || c == '?'

/-- The lookahead class of `SENT_SPLIT_RE`: `[A-Z“"(]`. -/
def isSentStart (c : Char) : Bool :=
  (decide (65 ≤ c.toNat) && decide (c.toNat ≤ 90)) || c == '“' || c == '"' || c == '('

/-- `SENT_SPLIT_RE.split`: split at whitespace runs preceded by `[.!?]` and
followed by `[A-Z“"(]` (fuel-bounded scan; `cur` holds the current segment
reversed, so its head is the previously read character). -/
def sentSplitGo : Nat → List Char → List Char → List (List Char)
  | 0, cur, rest => [cur.reverse ++ rest]
  | _ + 1, cur, [] => [cur.reverse]
  | fuel + 1, cur, c :: cs =>
    if isSpaceChar c && headIs isSentEnd cur && headIs isSentStart (cs.dropWhile isSpaceChar)
    then cur.reverse :: sentSplitGo fuel [] (cs.dropWhile isSpaceChar)
    else sentSplitGo fuel (c :: cur) cs

def SENT_SPLIT (l : List Char) : List (List Char) := sentSplitGo l.length [] l

/-- Decimal digits of a natural number (fuel-bounded). -/
def natDigits : Nat → Nat → List Char
  | 0, _ => []
  | fuel + 1, n =>
    if n < 10 then [Char.ofNat (48 + n)]
    else natDigits fuel (n / 10) ++ [Char.ofNat (48 + n % 10)]

def natToStr (n : Nat) : List Char := natDigits (n + 1) n

/-- The `Candidate` dataclass. -/
structure Candidate where
  doctrine : Option Nat
  doctrine_label : List Char
  text : List Char
  author : List Char
  source_title : List Char
  source_year : Nat
  source_file : List Char
  page : Nat
  chapter : Option Nat
  score : Int
deriving DecidableEq, Repr

/-- `DOCTRINE_LABELS.get(d, f"Doctrine {d}")`. -/
def DOCTRINE_LABELS : Nat → List Char
  | 1 => "Scriptures".toList
  | 2 => "One God".toList
  | 3 => "Trinity".toList
  | 4 => "Jesus Christ (God & Man)".toList
  | 5 => "Fall / Depravity".toList
  | 6 => "Atonement (for all)".toList
  | 7 => "Repentance / Faith / Regeneration".toList
  | 8 => "Justification by grace through faith".toList
  | 9 => "Continuance in saving faith".toList
  | 10 => "Sanctification".toList
  | 11 => "Resurrection / Judgment / Eternity".toList
  | d => "Doctrine ".toList ++ natToStr d

/-- The character set of `strip(" -–—")`. -/
def isStripSet (c : Char) : Bool := c == ' ' || c == '-' || c == '–' || c == '—'

def trimSet (p : Char → Bool) (l : List Char) : List Char :=
  ((l.dropWhile p).reverse.dropWhile p).reverse

/-- `windows_from_sentences`. -/
def windows_from_sentences (sentences : List (List Char)) (max_sents : Nat) :
    List (List Char) :=
  (List.range sentences.length).flatMap (fun i =>
    (List.range max_sents).filterMap (fun w0 =>
      let w := w0 + 1
      if sentences.length < i + w then none
      else
        let chunk := trimWs (joinWords ((sentences.drop i).take w))
        if chunk = [] then none else some chunk))

/-- `extract_candidates_from_page`. -/
def extract_candidates_from_page (page_text : List Char) (page_number : Nat)
    (chapter : Option Nat) (source_title : List Char) (source_year : Nat)
    (source_file : List Char) (min_len max_len max_sents : Nat) : List Candidate :=
  let t := norm page_text
  if t = [] then []
  else
    let sents := ((SENT_SPLIT t).map (fun s => trimWs s)).filter (fun s => ¬s.isEmpty)
    let windows := windows_from_sentences sents max_sents
    windows.filterMap (fun ex0 =>
      let ex := trimSet isStripSet (trimWs ex0)
      if ¬(min_len ≤ ex.length ∧ ex.length ≤ max_len) then none
      else
        match doctrine_from_chapter_and_text chapter ex with
        | none => none
        | some d =>
          if score_excerpt d ex < 180 then none
          else some {
            doctrine := some d
            doctrine_label := DOCTRINE_LABELS d
            text := ex
            author := source_title ++ " (".toList ++ natToStr source_year ++
              "), p. ".toList ++ natToStr page_number
            source_title := source_title
            source_year := source_year
            source_file := source_file
            page := page_number
            chapter := chapter
            score := score_excerpt d ex })

/-- An empty excerpt scores `-0.6` (below every acceptance threshold). -/
theorem score_empty (d : Nat) : score_excerpt d [] = -60 := by
  rcases d with _ | _ | _ | _ | _ | _ | _ | _ | _ | _ | _ | _ | n
  all_goals first | decide | rfl

/-- C4 (miner part): every candidate emitted by `extract_candidates_from_page`
has a nonempty text of length within `[min_len, max_len]`. -/
theorem extract_candidates_length_invariant (page_text : List Char) (page_number : Nat)
    (chapter : Option Nat) (source_title : List Char) (source_year : Nat)
    (source_file : List Char) (min_len max_len max_sents : Nat) :
    ∀ c ∈ extract_candidates_from_page page_text page_number chapter source_title
      source_year source_file min_len max_len max_sents,
      c.text ≠ [] ∧ min_len ≤ c.text.length ∧ c.text.length ≤ max_len := by
  intro c hc
  rw [extract_candidates_from_page] at hc
  by_cases ht : norm page_text = []
  · rw [if_pos ht] at hc; simp at hc
  · rw [if_neg ht] at hc
    rcases List.mem_filterMap.mp hc with ⟨ex0, _, heq⟩
    simp only at heq
    split at heq
    · exact absurd heq (by simp)
    · rename_i hlen
      push_neg at hlen
      split at heq
      · exact absurd heq (by simp)
      · rename_i d hd
        split at heq
        · exact absurd heq (by simp)
        · rename_i hsc
          simp only [Option.some.injEq] at heq
          subst heq
          refine ⟨?_, hlen.1, hlen.2⟩
          intro hnil
          have hnil2 : trimSet isStripSet (trimWs ex0) = [] := hnil
          rw [hnil2, score_empty d] at hsc
          exact hsc (by decide)

end Mine

namespace Mine

/-- The spec scenario's first input, the elided sentence completed to exactly
90 characters (any completion ending in "divine revelation." behaves the
same: the word "Revelation" is in `BOOKS`). -/
def scenarioSentence : List Char :=
  ("We believe that the Scriptures of the Old and New Testaments " ++
    "do contain divine revelation.").toList

/-- The spec scenario's second input. -/
def scenarioReference : List Char := "See Romans 8:1 for details.".toList

end Mine

/-- C6 counterexample: the 90-character sentence does NOT score above the
acceptance threshold (1.8 → 180 hundredths) and is NOT kept: `revelation`
matches `SCRIPTUREISH_RE` (the book of Revelation, −2.5), length 90 < 110
adds −0.6, so it scores −0.25; under the miner's defaults
(`--min-len 120 --max-len 280 --max-sents 3`) it is also below the length
floor, and `extract_candidates_from_page` emits nothing. -/
theorem C6_counterexample :
    Mine.scenarioSentence.length = 90 ∧
    Mine.score_excerpt 1 Mine.scenarioSentence = -25 ∧
    Mine.extract_candidates_from_page Mine.scenarioSentence 1 (some 2)
      "Handbook of Salvation Army Doctrine".toList 1923
      "handbookofsalvat00unse.pdf".toList 120 280 3 = [] := by
  refine ⟨by decide, by decide, by decide⟩

/-- C6 (amended): both scenario inputs are dropped.  The 90-character
sentence matches the scripture pattern through the word `revelation` and
scores −0.25 (−25 hundredths), below the 1.8 (180) threshold — and is also
shorter than the default `min_len` 120; `"See Romans 8:1 for details."`
matches the scripture pattern, receives its −2.5 penalty (scoring −3.1),
and is likewise not emitted. -/
theorem C6_scripture_scenarios :
    (Mine.scenarioSentence.length = 90 ∧
     Mine.SCRIPTUREISH Mine.scenarioSentence = true ∧
     Mine.score_excerpt 1 Mine.scenarioSentence = -25 ∧
     Mine.extract_candidates_from_page Mine.scenarioSentence 1 (some 2)
       "Handbook of Salvation Army Doctrine".toList 1923
       "handbookofsalvat00unse.pdf".toList 120 280 3 = []) ∧
    (Mine.SCRIPTUREISH Mine.scenarioReference = true ∧
     Mine.score_excerpt 1 Mine.scenarioReference = -310 ∧
     Mine.extract_candidates_from_page Mine.scenarioReference 1 (some 2)
       "Handbook of Salvation Army Doctrine".toList 1923
       "handbookofsalvat00unse.pdf".toList 120 280 3 = []) := by
  refine ⟨⟨by decide, by decide, by decide, by decide⟩, by decide, by decide, by decide⟩

/-! ## tools/clean_handbook_1923_quotes.py: boilerplate stripping

All strings reaching these regexes have been through `normalize_text`, so
they contain no newline; `.` (any-but-newline) and `$` are modelled as "any
character" and end-of-string. -/

namespace Clean

def isRomanChar (c : Char) : Bool :=
  c == 'I' || c == 'V' || c == 'X' || c == 'L' || c == 'C' ||
  c == 'i' || c == 'v' || c == 'x' || c == 'l' || c == 'c'

def isDashChar (c : Char) : Bool := c == '—' || c == '-' || c == '–'

/-- `\b(?:We believe that|We believe in|We believe)\b` (IGNORECASE):
alternatives in source order, word boundary after the phrase (the boundary
before is checked by the scanner). -/
def matchWeBelieveAt (l : List Char) : Option Nat :=
  (["We believe that", "We believe in", "We believe"].map String.toList).findSome?
    fun p =>
      match Mine.dropCiPrefix p l with
      | some rest => if Mine.notWordStart rest then some p.length else none
      | none => none

/-- `WE_BELIEVE_RE.search`: the suffix of `l` from the first match start. -/
def wbSearchGo (prevWord : Bool) : List Char → Option (List Char)
  | [] => none
  | c :: cs =>
    if ¬prevWord ∧ (matchWeBelieveAt (c :: cs)).isSome then some (c :: cs)
    else wbSearchGo (isWordChar c) cs

def wbSearch (l : List Char) : Option (List Char) := wbSearchGo false l

/-- After `\(\s*see\s+`: find the closing paren within 80 further
characters (`[^)]{0,80}\)` with backtracking always ends at the first `)`).
Returns the remainder after the `)`. -/
def parenMatchRest (cs : List Char) : Option (List Char) :=
  match Mine.dropCiPrefix "see".toList (cs.dropWhile isSpaceChar) with
  | none => none
  | some b =>
    if Mine.headIs isSpaceChar b then
      let b2 := b.dropWhile isSpaceChar
      let t := b2.takeWhile (fun c => !(c == ')'))
      match b2.dropWhile (fun c => !(c == ')')) with
      | ')' :: rest => if t.length ≤ 80 then some rest else none
      | _ => none
    else none

/-- `PAREN_NOTE_RE.sub("", s)`: remove every `\(\s*see\s+[^)]{0,80}\)`
(IGNORECASE), scanning left to right. -/
def parenNoteGo : Nat → List Char → List Char
  | 0, l => l
  | _ + 1, [] => []
  | fuel + 1, c :: cs =>
    if c = '(' then
      match parenMatchRest cs with
      | some rest => parenNoteGo fuel rest
      | none => c :: parenNoteGo fuel cs
    else c :: parenNoteGo fuel cs

def parenNoteSub (l : List Char) : List Char := parenNoteGo l.length l

/-- `\s*\.?\s*[—\-–]`: optional whitespace, optional dot, optional
whitespace, then a dash.  Returns the remainder after the dash. -/
def dashSeq (l : List Char) : Option (List Char) :=
  let l1 := l.dropWhile isSpaceChar
  let l2 := match l1 with
            | '.' :: r => r
            | _ => l1
  match l2.dropWhile isSpaceChar with
  | c :: r => if isDashChar c then some r else none
  | [] => none

/-- `.*?\s+` (no newlines present): consume through the first whitespace
run; fails when no whitespace follows. -/
def lazyToWs (l : List Char) : Option (List Char) :=
  match l.dropWhile (fun c => !isSpaceChar c) with
  | [] => none
  | rest => some (rest.dropWhile isSpaceChar)

/-- `\s*.*?\s+` after the dash: with a following whitespace run the match
ends after the first such run; otherwise backtracking ends it at the end of
the leading run (if nonempty); otherwise it fails. -/
def lazyWsTail (r : List Char) : Option (List Char) :=
  match lazyToWs (r.dropWhile isSpaceChar) with
  | some rest => some rest
  | none => if Mine.headIs isSpaceChar r then some (r.dropWhile isSpaceChar) else none

/-- First `LEADING_JUNK_RE` alternative:
`(?:Sec\.|Section)\s+[IVXLC]+\s*\.?\s*[—\-–]\s*.*?\s+`. -/
def altSecMatch (s : List Char) : Option (List Char) :=
  (match Mine.dropCiPrefix "sec.".toList s with
   | some r => some r
   | none => Mine.dropCiPrefix "section".toList s).bind fun r1 =>
  (if Mine.headIs isSpaceChar r1 then some (r1.dropWhile isSpaceChar) else none).bind fun r2 =>
  (if Mine.headIs isRomanChar r2 then some (r2.dropWhile isRomanChar) else none).bind fun r3 =>
  (dashSeq r3).bind fun r4 =>
  lazyWsTail r4

/-- Second alternative: `(?:[IVXLC]+)\s*\.?\s*[—\-–]\s*.*?\s+`. -/
def altRomanDash (s : List Char) : Option (List Char) :=
  (if Mine.headIs isRomanChar s then some (s.dropWhile isRomanChar) else none).bind fun r1 =>
  (dashSeq r1).bind fun r2 =>
  lazyWsTail r2

/-- Third alternative: `(?:[IVXLC]+\.)\s*`. -/
def altRomanDot (s : List Char) : Option (List Char) :=
  if Mine.headIs isRomanChar s then
    match s.dropWhile isRomanChar with
    | '.' :: r => some (r.dropWhile isSpaceChar)
    | _ => none
  else none

/-- `LEADING_JUNK_RE.sub("", s)` (anchored at the start; the trailing empty
alternative makes a non-match a no-op). -/
def leadingJunkStrip (s : List Char) : List Char :=
  match altSecMatch s with
  | some rest => rest
  | none =>
    match altRomanDash s with
    | some rest => rest
    | none =>
      match altRomanDot s with
      | some rest => rest
      | none => s

/-- The `for _ in range(5)` loop around `LEADING_JUNK_RE.sub("", s).strip()`
with early exit on a fixpoint. -/
def stripLeadLoop : Nat → List Char → List Char
  | 0, s => s
  | n + 1, s =>
    let nxt := trimWs (leadingJunkStrip s)
    if nxt = s then s else stripLeadLoop n nxt

/-- One `TRAILING_JUNK_RE` alternative starting at the current position
(every alternative begins with `\s+` and consumes to the end). -/
def trailingMatchAt (l : List Char) : Bool :=
  if Mine.headIs isSpaceChar l then
    let after := l.dropWhile isSpaceChar
    -- `(?:Section|Sec\.)\s+[IVXLC]+\s*\.?\s*[—\-–].*?$`
    (match (match Mine.dropCiPrefix "section".toList after with
            | some r => some r
            | none => Mine.dropCiPrefix "sec.".toList after) with
     | some r1 =>
       if Mine.headIs isSpaceChar r1 then
         let r2 := r1.dropWhile isSpaceChar
         if Mine.headIs isRomanChar r2 then (dashSeq (r2.dropWhile isRomanChar)).isSome
         else false
       else false
     | none => false) ||
    -- `Section\s+\w+\s*\.?\s*[—\-–].*?$`
    (match Mine.dropCiPrefix "section".toList after with
     | some r1 =>
       if Mine.headIs isSpaceChar r1 then
         let r2 := r1.dropWhile isSpaceChar
         if Mine.headIs isWordChar r2 then (dashSeq (r2.dropWhile isWordChar)).isSome
         else false
       else false
     | none => false) ||
    -- `\d+\.\s*$`
    (if Mine.headIs isDigitChar after then
       match after.dropWhile isDigitChar with
       | '.' :: r => r.all isSpaceChar
       | _ => false
     else false)
  else false

/-- `TRAILING_JUNK_RE.sub("", s)`: cut from the leftmost match to the end. -/
def trailJunkGo : Nat → List Char → List Char
  | 0, l => l
  | _ + 1, [] => []
  | fuel + 1, c :: cs => if trailingMatchAt (c :: cs) then [] else c :: trailJunkGo fuel cs

def trailJunkSub (l : List Char) : List Char := trailJunkGo l.length l

/-- `\s+(Section|Sec\.)\s+[IVXLC]+\s*\.?\s*[—\-–].*$` at the current
position. -/
def sectionTailAt (l : List Char) : Bool :=
  if Mine.headIs isSpaceChar l then
    let after := l.dropWhile isSpaceChar
    match (match Mine.dropCiPrefix "section".toList after with
           | some r => some r
           | none => Mine.dropCiPrefix "sec.".toList after) with
    | some r1 =>
      if Mine.headIs isSpaceChar r1 then
        let r2 := r1.dropWhile isSpaceChar
        if Mine.headIs isRomanChar r2 then (dashSeq (r2.dropWhile isRomanChar)).isSome
        else false
      else false
    | none => false
  else false

def sectionTailGo : Nat → List Char → List Char
  | 0, l => l
  | _ + 1, [] => []
  | fuel + 1, c :: cs => if sectionTailAt (c :: cs) then [] else c :: sectionTailGo fuel cs

def sectionTailSub (l : List Char) : List Char := sectionTailGo l.length l

def isOpenQuote (c : Char) : Bool := c == '“' || c == '"' || c == '‘' || c == '\''
def isCloseQuote (c : Char) : Bool := c == '”' || c == '"' || c == '’' || c == '\''

/-- `if s and s[0] in OPEN_QUOTES: s = s[1:].lstrip()`. -/
def trimOpenQuote (s : List Char) : List Char :=
  match s with
  | c :: rest => if isOpenQuote c then rest.dropWhile isSpaceChar else s
  | [] => s

/-- `if s and s[-1] in CLOSE_QUOTES: s = s[:-1].rstrip()`. -/
def trimCloseQuote (s : List Char) : List Char :=
  match s.getLast? with
  | some c => if isCloseQuote c then rtrimWs s.dropLast else s
  | none => s

/-- `strip_boilerplate`. -/
def strip_boilerplate (s0 : List Char) : List Char :=
  let s1 := normCore s0
  let s2 := match wbSearch s1 with
            | some suffix => trimWs suffix
            | none => s1
  let s3 := parenNoteSub s2
  let s4 := stripLeadLoop 5 s3
  let s5 := trimWs (trailJunkSub s4)
  let s6 := trimWs (sectionTailSub s5)
  let s7 := trimCloseQuote (trimOpenQuote s6)
  normCore s7

end Clean

namespace Clean

/-- `WE_BELIEVE_RE.finditer`: start indices of the non-overlapping matches. -/
def wbMatchesGo : Nat → Bool → Nat → List Char → List Nat
  | 0, _, _, _ => []
  | _ + 1, _, _, [] => []
  | fuel + 1, prevWord, i, c :: cs =>
    match (if prevWord then none else matchWeBelieveAt (c :: cs)) with
    | some len => i :: wbMatchesGo fuel true (i + len) ((c :: cs).drop len)
    | none => wbMatchesGo fuel (isWordChar c) (i + 1) cs

def wbMatchStarts (s : List Char) : List Nat := wbMatchesGo s.length false 0 s

/-- The character set of `strip(" ;:-–—")`. -/
def isChunkStrip (c : Char) : Bool :=
  c == ' ' || c == ';' || c == ':' || c == '-' || c == '–' || c == '—'

/-- `split_we_believe_blocks`. -/
def split_we_believe_blocks (s0 : List Char) : List (List Char) :=
  let s := strip_boilerplate s0
  let starts := wbMatchStarts s
  if starts.length ≤ 1 then
    if s = [] then [] else [s]
  else
    (starts.zip (starts.tail ++ [s.length])).filterMap fun ab =>
      let chunk := Mine.trimSet isChunkStrip ((s.drop ab.1).take (ab.2 - ab.1))
      let chunk2 := strip_boilerplate chunk
      if chunk2 = [] then none else some chunk2

/-- The texts emitted for one input record by `main`'s cleaning loop
(chunking, re-stripping, the emptiness and `[min_len, max_len]` gates). -/
def emittedTexts (noSplit : Bool) (minLen maxLen : Nat) (raw : List Char) :
    List (List Char) :=
  let chunks := if noSplit then [strip_boilerplate raw] else split_we_believe_blocks raw
  chunks.filterMap fun ch0 =>
    let ch := strip_boilerplate ch0
    if ch = [] then none
    else if ¬(minLen ≤ ch.length ∧ ch.length ≤ maxLen) then none
    else some ch

theorem emittedTexts_invariant (noSplit : Bool) (minLen maxLen : Nat) (raw : List Char) :
    ∀ t ∈ emittedTexts noSplit minLen maxLen raw,
      t ≠ [] ∧ minLen ≤ t.length ∧ t.length ≤ maxLen := by
  intro t ht
  rw [emittedTexts] at ht
  rcases List.mem_filterMap.mp ht with ⟨ch0, _, heq⟩
  simp only at heq
  split at heq
  · exact absurd heq (by simp)
  · rename_i hne
    split at heq
    · exact absurd heq (by simp)
    · rename_i hlen
      push_neg at hlen
      simp only [Option.some.injEq] at heq
      subst heq
      exact ⟨hne, hlen.1, hlen.2⟩

end Clean

/-- C8: boilerplate-stripping on the exact scenario input cuts at the
doctrinal anchor and yields exactly the expected sentence. -/
theorem C8_strip_boilerplate_scenario :
    Clean.strip_boilerplate
      "I.—The Bible Section II.—Inspiration We believe in one God.".toList =
      "We believe in one God.".toList := by decide

/-- C7 counterexample: stray leading/trailing quote characters are NOT
trimmed by the normalizer: `normalize_text` keeps them in place, and even
`strip_boilerplate` (which removes at most one per side) leaves a second
stray leading quote. -/
theorem C7_counterexample :
    Clean.normalize_text (some "''Abc def.".toList) = "''Abc def.".toList ∧
    Clean.strip_boilerplate "''Abc def.".toList = "'Abc def.".toList :=
  ⟨by decide, by decide⟩

/-- C4: every record emitted by the miner's extraction
(`extract_candidates_from_page`) and by the cleaner's emission loop has a
nonempty text whose length lies within `[min_len, max_len]` at the point of
acceptance. -/
theorem C4_emitted_length_invariant (page_text : List Char) (page_number : Nat)
    (chapter : Option Nat) (source_title : List Char) (source_year : Nat)
    (source_file : List Char) (min_len max_len max_sents : Nat)
    (noSplit : Bool) (minLen maxLen : Nat) (raw : List Char) :
    (∀ c ∈ Mine.extract_candidates_from_page page_text page_number chapter source_title
        source_year source_file min_len max_len max_sents,
        c.text ≠ [] ∧ min_len ≤ c.text.length ∧ c.text.length ≤ max_len) ∧
    (∀ t ∈ Clean.emittedTexts noSplit minLen maxLen raw,
        t ≠ [] ∧ minLen ≤ t.length ∧ t.length ≤ maxLen) :=
  ⟨Mine.extract_candidates_length_invariant page_text page_number chapter source_title
      source_year source_file min_len max_len max_sents,
    Clean.emittedTexts_invariant noSplit minLen maxLen raw⟩

namespace Mine

/-- A concrete page sentence that the miner accepts (used as a witness). -/
def witnessPage : List Char :=
  ("We believe the Bible is the inspired word given for men, and its " ++
    "inspiration is a holy gift that we must keep.").toList

def witnessCandidate : Candidate where
  doctrine := some 1
  doctrine_label := "Scriptures".toList
  text := witnessPage
  author := "Handbook of Salvation Army Doctrine (1923), p. 3".toList
  source_title := "Handbook of Salvation Army Doctrine".toList
  source_year := 1923
  source_file := "handbookofsalvat00unse.pdf".toList
  page := 3
  chapter := some 2
  score := 250

end Mine

/-- C4 witness: the invariant applied to concrete accepted records of both
pipelines. -/
theorem C4_witness :
    (Mine.witnessCandidate.text ≠ [] ∧ 10 ≤ Mine.witnessCandidate.text.length ∧
      Mine.witnessCandidate.text.length ≤ 300) ∧
    ("We believe that God is love.".toList ≠ [] ∧
      10 ≤ "We believe that God is love.".toList.length ∧
      "We believe that God is love.".toList.length ≤ 300) :=
  ⟨(C4_emitted_length_invariant Mine.witnessPage 3 (some 2)
      "Handbook of Salvation Army Doctrine".toList 1923
      "handbookofsalvat00unse.pdf".toList 10 300 3 false 10 300 []).1
      Mine.witnessCandidate (by decide),
   (C4_emitted_length_invariant [] 1 none [] 0 [] 0 0 0 false 10 300
      "We believe (see   note on page 4) that God is love. 3.".toList).2
      "We believe that God is love.".toList (by decide)⟩

/-! ## tools/mine_handbook_1923_quotes.py: `dedupe` -/

namespace Mine

/-- `[a-z0-9]` (the key alphabet of `dedupe`). -/
def isKeyAlnum (c : Char) : Bool :=
  (decide (97 ≤ c.toNat) && decide (c.toNat ≤ 122)) || isDigitChar c

def subRunsByStep (p : Char → Bool) (c : Char) (acc : Bool × List Char) :
    Bool × List Char :=
  if p c then (true, if acc.1 then acc.2 else ' ' :: acc.2) else (false, c :: acc.2)

/-- Replace each maximal run of characters satisfying `p` by one space
(`re.sub` with a `[...]+` pattern; the flag tracks whether the output built
so far begins with such a replacement). -/
def subRunsBy (p : Char → Bool) (l : List Char) : List Char :=
  (l.foldr (subRunsByStep p) (false, [])).2

/-- The canonical key of `dedupe`: lowercase, non-`[a-z0-9]` runs to single
spaces, strip, whitespace runs to single spaces. -/
def dedupe_key (text : List Char) : List Char :=
  subWsRuns (trimWs (subRunsBy (fun c => !isKeyAlnum c) (lowerStr text)))

/-- `sorted(cands, key=lambda x: (-x.score, x.page))`'s comparison: `a` comes
no later than `b`. -/
def candLE (a b : Candidate) : Bool :=
  decide (b.score < a.score) ||
    (decide (a.score = b.score) && decide (a.page ≤ b.page))

/-- Stable insertion (equal keys keep their original relative order). -/
def insertStable (c : Candidate) : List Candidate → List Candidate
  | [] => [c]
  | d :: ds => if candLE c d then c :: d :: ds else d :: insertStable c ds

/-- A stable sort by `(-score, page)` (Python's `sorted` is stable; stable
sorts of a total preorder agree on the result). -/
def sortCands : List Candidate → List Candidate
  | [] => []
  | c :: cs => insertStable c (sortCands cs)

/-- The `seen`-set loop of `dedupe`. -/
def dedupeGo (seen : List (List Char)) : List Candidate → List Candidate
  | [] => []
  | c :: cs =>
    if dedupe_key c.text ∈ seen then dedupeGo seen cs
    else c :: dedupeGo (dedupe_key c.text :: seen) cs

/-- `dedupe`. -/
def dedupe (cands : List Candidate) : List Candidate := dedupeGo [] (sortCands cands)

theorem candLE_refl (a : Candidate) : candLE a a = true := by
  simp [candLE]

theorem candLE_total {a b : Candidate} (h : candLE a b = false) : candLE b a = true := by
  simp only [candLE, Bool.or_eq_false_iff, Bool.and_eq_false_iff, Bool.or_eq_true,
    Bool.and_eq_true, decide_eq_false_iff_not, decide_eq_true_eq] at h ⊢
  omega

theorem candLE_trans {a b c : Candidate} (hab : candLE a b = true)
    (hbc : candLE b c = true) : candLE a c = true := by
  simp only [candLE, Bool.or_eq_true, Bool.and_eq_true, decide_eq_true_eq] at hab hbc ⊢
  rcases hab with h1 | ⟨h1, h2⟩ <;> rcases hbc with h3 | ⟨h3, h4⟩ <;>
    first | (left; omega) | (right; constructor <;> omega)

theorem mem_insertStable (c a : Candidate) (l : List Candidate) :
    a ∈ insertStable c l ↔ a = c ∨ a ∈ l := by
  induction l with
  | nil => simp [insertStable]
  | cons d ds ih =>
    rw [insertStable]
    by_cases h : candLE c d = true
    · rw [if_pos h]
      simp only [List.mem_cons]
    · rw [if_neg h]
      simp only [List.mem_cons, ih]
      tauto

theorem mem_sortCands (a : Candidate) (l : List Candidate) :
    a ∈ sortCands l ↔ a ∈ l := by
  induction l with
  | nil => simp [sortCands]
  | cons c cs ih =>
    rw [sortCands, mem_insertStable]
    simp only [List.mem_cons, ih]

theorem sorted_insertStable (c : Candidate) {l : List Candidate}
    (hl : l.Pairwise (fun a b => candLE a b = true)) :
    (insertStable c l).Pairwise (fun a b => candLE a b = true) := by
  induction l with
  | nil => simp [insertStable]
  | cons d ds ih =>
    rw [insertStable]
    rcases List.pairwise_cons.mp hl with ⟨hd, hds⟩
    by_cases h : candLE c d = true
    · rw [if_pos h]
      refine List.pairwise_cons.mpr ⟨?_, hl⟩
      intro x hx
      rcases List.mem_cons.mp hx with hx | hx
      · subst hx; exact h
      · exact candLE_trans h (hd x hx)
    · rw [if_neg h]
      refine List.pairwise_cons.mpr ⟨?_, ih hds⟩
      intro x hx
      rcases (mem_insertStable c x ds).mp hx with hx | hx
      · subst hx; exact candLE_total (by simpa using h)
      · exact hd x hx

theorem sortCands_sorted (l : List Candidate) :
    (sortCands l).Pairwise (fun a b => candLE a b = true) := by
  induction l with
  | nil => simp [sortCands]
  | cons c cs ih => exact sorted_insertStable c ih

theorem dedupeGo_subset (seen : List (List Char)) (l : List Candidate) :
    ∀ c ∈ dedupeGo seen l, c ∈ l := by
  induction l generalizing seen with
  | nil => simp [dedupeGo]
  | cons d ds ih =>
    intro c hc
    rw [dedupeGo] at hc
    by_cases h : dedupe_key d.text ∈ seen
    · rw [if_pos h] at hc
      exact List.mem_cons_of_mem d (ih seen c hc)
    · rw [if_neg h] at hc
      rcases List.mem_cons.mp hc with hc | hc
      · simp [hc]
      · exact List.mem_cons_of_mem d (ih _ c hc)

theorem dedupeGo_not_seen (seen : List (List Char)) (l : List Candidate) :
    ∀ c ∈ dedupeGo seen l, dedupe_key c.text ∉ seen := by
  induction l generalizing seen with
  | nil => simp [dedupeGo]
  | cons d ds ih =>
    intro c hc
    rw [dedupeGo] at hc
    by_cases h : dedupe_key d.text ∈ seen
    · rw [if_pos h] at hc
      exact ih seen c hc
    · rw [if_neg h] at hc
      rcases List.mem_cons.mp hc with hc | hc
      · subst hc; exact h
      · intro hmem
        exact ih _ c hc (List.mem_cons_of_mem _ hmem)

theorem dedupeGo_pairwise (seen : List (List Char)) (l : List Candidate) :
    (dedupeGo seen l).Pairwise
      (fun a b => dedupe_key a.text ≠ dedupe_key b.text) := by
  induction l generalizing seen with
  | nil => simp [dedupeGo]
  | cons d ds ih =>
    rw [dedupeGo]
    by_cases h : dedupe_key d.text ∈ seen
    · rw [if_pos h]; exact ih seen
    · rw [if_neg h]
      refine List.pairwise_cons.mpr ⟨?_, ih _⟩
      intro x hx heq
      exact dedupeGo_not_seen _ ds x hx (by rw [← heq]; exact List.mem_cons_self _ _)

theorem dedupeGo_complete (seen : List (List Char)) (l : List Candidate) :
    ∀ x ∈ l, dedupe_key x.text ∈ seen ∨
      ∃ c ∈ dedupeGo seen l, dedupe_key c.text = dedupe_key x.text := by
  induction l generalizing seen with
  | nil => simp
  | cons d ds ih =>
    intro x hx
    rw [dedupeGo]
    by_cases h : dedupe_key d.text ∈ seen
    · rw [if_pos h]
      rcases List.mem_cons.mp hx with hx | hx
      · subst hx; exact Or.inl h
      · exact ih seen x hx
    · rw [if_neg h]
      rcases List.mem_cons.mp hx with hx | hx
      · exact Or.inr ⟨d, List.mem_cons_self _ _, by rw [hx]⟩
      · rcases ih (dedupe_key d.text :: seen) x hx with hseen | ⟨c, hc, hkey⟩
        · rcases List.mem_cons.mp hseen with heq | hseen
          · exact Or.inr ⟨d, List.mem_cons_self _ _, heq.symm⟩
          · exact Or.inl hseen
        · exact Or.inr ⟨c, List.mem_cons_of_mem d hc, hkey⟩

theorem dedupeGo_represents (seen : List (List Char)) (l : List Candidate)
    (hl : l.Pairwise (fun a b => candLE a b = true)) :
    ∀ c ∈ dedupeGo seen l, ∀ x ∈ l,
      dedupe_key x.text = dedupe_key c.text → candLE c x = true := by
  induction l generalizing seen with
  | nil => simp [dedupeGo]
  | cons d ds ih =>
    rcases List.pairwise_cons.mp hl with ⟨hd, hds⟩
    intro c hc x hx hkey
    rw [dedupeGo] at hc
    by_cases h : dedupe_key d.text ∈ seen
    · rw [if_pos h] at hc
      rcases List.mem_cons.mp hx with hx | hx
      · subst hx
        have := dedupeGo_not_seen seen ds c hc
        rw [← hkey] at this
        exact absurd h this
      · exact ih seen hds c hc x hx hkey
    · rw [if_neg h] at hc
      rcases List.mem_cons.mp hc with hc | hc
      · subst hc
        rcases List.mem_cons.mp hx with hx | hx
        · subst hx; exact candLE_refl _
        · exact hd x hx
      · rcases List.mem_cons.mp hx with hx | hx
        · subst hx
          have := dedupeGo_not_seen _ ds c hc
          rw [← hkey] at this
          exact absurd (List.mem_cons_self _ _) this
        · exact ih _ hds c hc x hx hkey

end Mine

/-- C1 (amended): `dedupe` canonicalizes each candidate's text to a key and
emits exactly one candidate per input key — never two records with the same
key — and every emitted representative is maximal for its key by score,
ties broken by earliest page (`candLE`).  When two candidates share key,
score, AND page, the stable sort keeps the one earlier in the input, so the
representative is order-independent only up to such exact ties. -/
theorem C1_dedupe_amended (cands : List Mine.Candidate) :
    (Mine.dedupe cands).Pairwise
      (fun a b => Mine.dedupe_key a.text ≠ Mine.dedupe_key b.text) ∧
    (∀ x ∈ cands, ∃ c ∈ Mine.dedupe cands,
      Mine.dedupe_key c.text = Mine.dedupe_key x.text) ∧
    (∀ c ∈ Mine.dedupe cands, c ∈ cands) ∧
    (∀ c ∈ Mine.dedupe cands, ∀ x ∈ cands,
      Mine.dedupe_key x.text = Mine.dedupe_key c.text → Mine.candLE c x = true) := by
  refine ⟨Mine.dedupeGo_pairwise [] _, ?_, ?_, ?_⟩
  · intro x hx
    rcases Mine.dedupeGo_complete [] (Mine.sortCands cands) x
        ((Mine.mem_sortCands x cands).mpr hx) with h | h
    · simp at h
    · exact h
  · intro c hc
    exact (Mine.mem_sortCands c cands).mp (Mine.dedupeGo_subset [] _ c hc)
  · intro c hc x hx hkey
    exact Mine.dedupeGo_represents [] _ (Mine.sortCands_sorted cands) c hc x
      ((Mine.mem_sortCands x cands).mpr hx) hkey

namespace Mine

/-- Two distinct candidates sharing canonical key, score, and page. -/
def tieA : Candidate where
  doctrine := some 1
  doctrine_label := "Scriptures".toList
  text := "We Believe!".toList
  author := "Handbook of Salvation Army Doctrine (1923), p. 5".toList
  source_title := "Handbook of Salvation Army Doctrine".toList
  source_year := 1923
  source_file := "handbookofsalvat00unse.pdf".toList
  page := 5
  chapter := some 2
  score := 215

def tieB : Candidate where
  doctrine := some 1
  doctrine_label := "Scriptures".toList
  text := "we believe".toList
  author := "Handbook of Salvation Army Doctrine (1923), p. 5".toList
  source_title := "Handbook of Salvation Army Doctrine".toList
  source_year := 1923
  source_file := "handbookofsalvat00unse.pdf".toList
  page := 5
  chapter := some 2
  score := 215

end Mine

/-- C1 counterexample: two distinct candidates with the same canonical key
(`"we believe"`), the same score and the same page: the chosen
representative depends on the input order, refuting order-independence. -/
theorem C1_counterexample :
    Mine.dedupe_key Mine.tieA.text = Mine.dedupe_key Mine.tieB.text ∧
    Mine.tieA ≠ Mine.tieB ∧
    Mine.dedupe [Mine.tieA, Mine.tieB] = [Mine.tieA] ∧
    Mine.dedupe [Mine.tieB, Mine.tieA] = [Mine.tieB] :=
  ⟨by decide, by decide, by decide, by decide⟩

/-- C1 witness: the amended theorem applied at a concrete input. -/
theorem C1_witness :
    Mine.tieA ∈ [Mine.tieA, Mine.tieB] ∧
    Mine.candLE Mine.tieA Mine.tieB = true :=
  ⟨by decide,
    (C1_dedupe_amended [Mine.tieA, Mine.tieB]).2.2.2 Mine.tieA (by decide)
      Mine.tieB (by decide) (by decide)⟩

/-! ## tools/mine_handbook_1923_quotes.py: `select_balanced` -/

namespace Mine

/-- `range(1, 12)`: the 11 doctrine bucket indices. -/
def DOCTRINE_RANGE : List Nat := [1, 2, 3, 4, 5, 6, 7, 8, 9, 10, 11]

/-- Bucket `d`: the candidates with doctrine `d`, in input order, then
stably sorted by `(-score, page)` (Python `list.sort` is stable). -/
def bucket (cands : List Candidate) (d : Nat) : List Candidate :=
  sortCands (cands.filter (fun c => c.doctrine == some d))

/-- First pass of `select_balanced`: `base` per doctrine, in doctrine order. -/
def firstPass (buckets : Nat → List Candidate) (base : Nat) : List Candidate :=
  (DOCTRINE_RANGE.map (fun d => (buckets d).take base)).flatten

/-- The `for d in range(1, 12)` scan picking the best next candidate:
`if best_c is None or c.score > best_c.score` (strict, so the smallest
doctrine index wins score ties). -/
def bestPickGo (buckets : Nat → List Candidate) (ptrs : Nat → Nat) :
    List Nat → Option (Nat × Candidate) → Option (Nat × Candidate)
  | [], best => best
  | d :: ds, best =>
    bestPickGo buckets ptrs ds
      (match (buckets d).get? (ptrs d) with
       | none => best
       | some c =>
         match best with
         | none => some (d, c)
         | some q => if q.2.score < c.score then some (d, c) else some q)

def bestPick (buckets : Nat → List Candidate) (ptrs : Nat → Nat) :
    Option (Nat × Candidate) :=
  bestPickGo buckets ptrs DOCTRINE_RANGE none

/-- The `while len(selected) < total` loop.  Each iteration appends exactly
one candidate or breaks, so `total` units of fuel always suffice. -/
def selectLoop (buckets : Nat → List Candidate) (total : Nat) :
    Nat → (Nat → Nat) → List Candidate → List Candidate
  | 0, _, selected => selected
  | fuel + 1, ptrs, selected =>
    if selected.length < total then
      match bestPick buckets ptrs with
      | none => selected
      | some (d, c) =>
        selectLoop buckets total fuel
          (fun x => if x = d then ptrs x + 1 else ptrs x) (selected ++ [c])
    else selected

/-- `select_balanced(cands, total)` (`total` nonnegative, as in all uses). -/
def select_balanced (cands : List Candidate) (total : Nat) : List Candidate :=
  (selectLoop (bucket cands) total total (fun _ => total / 11)
    (firstPass (bucket cands) (total / 11))).take total

/-- Sum over the 11 buckets of how many entries the pointers have consumed. -/
def sumMin (buckets : Nat → List Candidate) (ptrs : Nat → Nat) : Nat :=
  (DOCTRINE_RANGE.map (fun d => min (ptrs d) (buckets d).length)).sum

/-- Total size of the 11 buckets. -/
def sumLen (buckets : Nat → List Candidate) : Nat :=
  (DOCTRINE_RANGE.map (fun d => (buckets d).length)).sum

theorem length_insertStable (c : Candidate) (l : List Candidate) :
    (insertStable c l).length = l.length + 1 := by
  induction l with
  | nil => rfl
  | cons d ds ih =>
    rw [insertStable]
    by_cases h : candLE c d = true
    · rw [if_pos h]; rfl
    · rw [if_neg h]
      simp only [List.length_cons, ih]

theorem length_sortCands (l : List Candidate) : (sortCands l).length = l.length := by
  induction l with
  | nil => rfl
  | cons c cs ih =>
    rw [sortCands, length_insertStable, ih]
    rfl

theorem mem_bucket (cands : List Candidate) (d : Nat) (x : Candidate) :
    x ∈ bucket cands d ↔ x ∈ cands ∧ x.doctrine = some d := by
  rw [bucket, mem_sortCands, List.mem_filter]
  simp only [beq_iff_eq]

theorem sum_map_le (R : List Nat) (f g : Nat → Nat) (h : ∀ x ∈ R, f x ≤ g x) :
    (R.map f).sum ≤ (R.map g).sum := by
  induction R with
  | nil => simp
  | cons a as ih =>
    simp only [List.map_cons, List.sum_cons]
    have h1 := h a (List.mem_cons_self _ _)
    have h2 := ih (fun x hx => h x (List.mem_cons_of_mem a hx))
    omega

theorem sum_map_add (R : List Nat) (f g : Nat → Nat) :
    (R.map (fun d => f d + g d)).sum = (R.map f).sum + (R.map g).sum := by
  induction R with
  | nil => simp
  | cons a as ih =>
    simp only [List.map_cons, List.sum_cons, ih]
    omega

theorem sum_map_update (R : List Nat) (hR : R.Nodup) (d : Nat) (hd : d ∈ R)
    (f g : Nat → Nat) (hfd : g d = f d + 1) (hfx : ∀ x, x ≠ d → g x = f x) :
    (R.map g).sum = (R.map f).sum + 1 := by
  induction R with
  | nil => cases hd
  | cons a as ih =>
    rcases List.nodup_cons.mp hR with ⟨ha, has⟩
    simp only [List.map_cons, List.sum_cons]
    rcases List.mem_cons.mp hd with hd | hd
    · subst hd
      have heq : as.map g = as.map f :=
        List.map_congr_left (fun x hx => hfx x (fun hxd => ha (hxd ▸ hx)))
      rw [heq, hfd]
      omega
    · have hne : a ≠ d := fun h => ha (h ▸ hd)
      rw [hfx a hne, ih has hd]
      omega

theorem map_eq_of_sum_le (R : List Nat) (f g : Nat → Nat) (hle : ∀ x ∈ R, f x ≤ g x)
    (hsum : (R.map g).sum ≤ (R.map f).sum) : ∀ x ∈ R, f x = g x := by
  induction R with
  | nil => simp
  | cons a as ih =>
    simp only [List.map_cons, List.sum_cons] at hsum
    have h1 := hle a (List.mem_cons_self _ _)
    have h2 : ∀ x ∈ as, f x ≤ g x := fun x hx => hle x (List.mem_cons_of_mem a hx)
    have h3 : (as.map f).sum ≤ (as.map g).sum := sum_map_le as f g h2
    intro x hx
    rcases List.mem_cons.mp hx with hx | hx
    · subst hx; omega
    · exact ih h2 (by omega) x hx

theorem sumMin_le_sumLen (buckets : Nat → List Candidate) (ptrs : Nat → Nat) :
    sumMin buckets ptrs ≤ sumLen buckets :=
  sum_map_le _ _ _ (fun x _ => Nat.min_le_right _ _)

theorem sumMin_update (buckets : Nat → List Candidate) (ptrs : Nat → Nat) (d : Nat)
    (hd : d ∈ DOCTRINE_RANGE) (hlt : ptrs d < (buckets d).length) :
    sumMin buckets (fun x => if x = d then ptrs x + 1 else ptrs x) =
      sumMin buckets ptrs + 1 := by
  refine sum_map_update DOCTRINE_RANGE (by decide) d hd _ _ ?_ ?_
  · simp only [eq_self_iff_true, if_true]
    omega
  · intro x hx
    simp only [if_neg hx]

theorem full_take_of_sum_le (buckets : Nat → List Candidate) (ptrs : Nat → Nat)
    (h : sumLen buckets ≤ sumMin buckets ptrs) :
    ∀ d ∈ DOCTRINE_RANGE, (buckets d).length ≤ ptrs d := by
  intro d hd
  have h2 : min (ptrs d) (buckets d).length = (buckets d).length :=
    map_eq_of_sum_le DOCTRINE_RANGE
      (fun x => min (ptrs x) (buckets x).length) (fun x => (buckets x).length)
      (fun x _ => Nat.min_le_right _ _) h d hd
  omega

theorem bestPickGo_none (buckets : Nat → List Candidate) (ptrs : Nat → Nat)
    (R : List Nat) :
    ∀ acc, bestPickGo buckets ptrs R acc = none ↔
      acc = none ∧ ∀ d ∈ R, (buckets d).get? (ptrs d) = none := by
  induction R with
  | nil => intro acc; simp [bestPickGo]
  | cons d ds ih =>
    intro acc
    rw [bestPickGo]
    rcases hg : (buckets d).get? (ptrs d) with _ | c
    · rw [ih acc]
      constructor
      · rintro ⟨h1, h2⟩
        refine ⟨h1, ?_⟩
        intro e he
        rcases List.mem_cons.mp he with he | he
        · subst he; exact hg
        · exact h2 e he
      · rintro ⟨h1, h2⟩
        exact ⟨h1, fun e he => h2 e (List.mem_cons_of_mem d he)⟩
    · have hne : (match acc with
          | none => some (d, c)
          | some q => if q.2.score < c.score then some (d, c) else some q) ≠ none := by
        rcases acc with _ | q
        · simp
        · by_cases hq : q.2.score < c.score <;> simp [hq]
      rw [ih _]
      constructor
      · rintro ⟨h1, _⟩
        exact absurd h1 hne
      · rintro ⟨_, h2⟩
        have := h2 d (List.mem_cons_self _ _)
        rw [hg] at this
        cases this

end Mine

namespace Mine

theorem bestPickGo_mem (buckets : Nat → List Candidate) (ptrs : Nat → Nat)
    (R : List Nat) :
    ∀ acc d c, bestPickGo buckets ptrs R acc = some (d, c) →
      acc = some (d, c) ∨ (d ∈ R ∧ (buckets d).get? (ptrs d) = some c) := by
  induction R with
  | nil =>
    intro acc d c h
    exact Or.inl h
  | cons e es ih =>
    intro acc d c h
    rw [bestPickGo] at h
    rcases hg : (buckets e).get? (ptrs e) with _ | c0
    · rw [hg] at h
      rcases ih acc d c h with h1 | ⟨h1, h2⟩
      · exact Or.inl h1
      · exact Or.inr ⟨List.mem_cons_of_mem e h1, h2⟩
    · rw [hg] at h
      rcases ih _ d c h with h1 | ⟨h1, h2⟩
      · rcases acc with _ | q
        · simp only [Option.some.injEq, Prod.mk.injEq] at h1
          refine Or.inr ⟨?_, ?_⟩
          · rw [← h1.1]; exact List.mem_cons_self _ _
          · rw [← h1.1, ← h1.2]; exact hg
        · have h1x : (if q.2.score < c0.score then some (e, c0) else some q)
              = some (d, c) := h1
          by_cases hq : q.2.score < c0.score
          · rw [if_pos hq] at h1x
            simp only [Option.some.injEq, Prod.mk.injEq] at h1x
            refine Or.inr ⟨?_, ?_⟩
            · rw [← h1x.1]; exact List.mem_cons_self _ _
            · rw [← h1x.1, ← h1x.2]; exact hg
          · rw [if_neg hq] at h1x
            exact Or.inl h1x
      · exact Or.inr ⟨List.mem_cons_of_mem e h1, h2⟩

theorem selectLoop_append (buckets : Nat → List Candidate) (total : Nat) :
    ∀ (fuel : Nat) (ptrs : Nat → Nat) (selected : List Candidate),
      ∃ extra, selectLoop buckets total fuel ptrs selected = selected ++ extra := by
  intro fuel
  induction fuel with
  | zero =>
    intro ptrs selected
    exact ⟨[], by rw [selectLoop, List.append_nil]⟩
  | succ n ih =>
    intro ptrs selected
    rw [selectLoop]
    by_cases hlt : selected.length < total
    · rw [if_pos hlt]
      rcases hb : bestPick buckets ptrs with _ | q
      · exact ⟨[], (List.append_nil selected).symm⟩
      · rcases q with ⟨d, c⟩
        rcases ih (fun x => if x = d then ptrs x + 1 else ptrs x) (selected ++ [c])
          with ⟨extra, hextra⟩
        refine ⟨[c] ++ extra, ?_⟩
        have hgoal : selectLoop buckets total n
            (fun x => if x = d then ptrs x + 1 else ptrs x) (selected ++ [c])
            = selected ++ ([c] ++ extra) := by
          rw [hextra, List.append_assoc]
        exact hgoal
    · rw [if_neg hlt]
      exact ⟨[], (List.append_nil selected).symm⟩

theorem selectLoop_length_le (buckets : Nat → List Candidate) (total : Nat)
    (hSL : sumLen buckets ≤ total) :
    ∀ (fuel : Nat) (ptrs : Nat → Nat) (selected : List Candidate),
      selected.length = sumMin buckets ptrs →
      (selectLoop buckets total fuel ptrs selected).length ≤ total := by
  intro fuel
  induction fuel with
  | zero =>
    intro ptrs selected hlen
    rw [selectLoop, hlen]
    exact le_trans (sumMin_le_sumLen buckets ptrs) hSL
  | succ n ih =>
    intro ptrs selected hlen
    rw [selectLoop]
    by_cases hlt : selected.length < total
    · rw [if_pos hlt]
      rcases hb : bestPick buckets ptrs with _ | q
      · rw [hlen]
        exact le_trans (sumMin_le_sumLen buckets ptrs) hSL
      · rcases q with ⟨d, c⟩
        rcases bestPickGo_mem buckets ptrs DOCTRINE_RANGE none d c hb with h | ⟨hd, hg⟩
        · cases h
        · rcases List.get?_eq_some.mp hg with ⟨hltd, _⟩
          refine ih _ (selected ++ [c]) ?_
          rw [List.length_append, List.length_cons, List.length_nil, hlen,
            sumMin_update buckets ptrs d hd hltd]
    · rw [if_neg hlt, hlen]
      exact le_trans (sumMin_le_sumLen buckets ptrs) hSL

theorem selectLoop_complete (buckets : Nat → List Candidate) (total : Nat)
    (hSL : sumLen buckets ≤ total) :
    ∀ (fuel : Nat) (ptrs : Nat → Nat) (selected : List Candidate),
      selected.length = sumMin buckets ptrs →
      (∀ d ∈ DOCTRINE_RANGE, ∀ x ∈ (buckets d).take (ptrs d), x ∈ selected) →
      total ≤ fuel + selected.length →
      ∀ d ∈ DOCTRINE_RANGE, ∀ x ∈ buckets d,
        x ∈ selectLoop buckets total fuel ptrs selected := by
  intro fuel
  induction fuel with
  | zero =>
    intro ptrs selected hlen hsub hfuel d hd x hx
    rw [selectLoop]
    have hfull : ∀ e ∈ DOCTRINE_RANGE, (buckets e).length ≤ ptrs e := by
      refine full_take_of_sum_le buckets ptrs ?_
      omega
    have := hsub d hd x
    rw [List.take_of_length_le (hfull d hd)] at this
    exact this hx
  | succ n ih =>
    intro ptrs selected hlen hsub hfuel d hd x hx
    rw [selectLoop]
    by_cases hlt : selected.length < total
    · rw [if_pos hlt]
      rcases hb : bestPick buckets ptrs with _ | q
      · have hnone := (bestPickGo_none buckets ptrs DOCTRINE_RANGE none).mp hb
        have hfull : (buckets d).length ≤ ptrs d :=
          List.get?_eq_none.mp (hnone.2 d hd)
        have := hsub d hd x
        rw [List.take_of_length_le hfull] at this
        exact this hx
      · rcases q with ⟨d0, c⟩
        rcases bestPickGo_mem buckets ptrs DOCTRINE_RANGE none d0 c hb with h | ⟨hd0, hg⟩
        · cases h
        · rcases List.get?_eq_some.mp hg with ⟨hltd, _⟩
          refine ih _ (selected ++ [c]) ?_ ?_ ?_ d hd x hx
          · rw [List.length_append, List.length_cons, List.length_nil, hlen,
              sumMin_update buckets ptrs d0 hd0 hltd]
          · intro e he y hy
            by_cases hed : e = d0
            · subst hed
              simp only [eq_self_iff_true, if_true] at hy
              rw [List.take_succ] at hy
              rcases List.mem_append.mp hy with hy | hy
              · exact List.mem_append_left _ (hsub e he y hy)
              · rw [← List.get?_eq_getElem?, hg] at hy
                rcases List.mem_singleton.mp (by simpa using hy) with rfl
                exact List.mem_append_right _ (List.mem_singleton.mpr rfl)
            · simp only [if_neg hed] at hy
              exact List.mem_append_left _ (hsub e he y hy)
          · rw [List.length_append, List.length_cons, List.length_nil]
            omega
    · rw [if_neg hlt]
      have hfull : ∀ e ∈ DOCTRINE_RANGE, (buckets e).length ≤ ptrs e := by
        refine full_take_of_sum_le buckets ptrs ?_
        omega
      have := hsub d hd x
      rw [List.take_of_length_le (hfull d hd)] at this
      exact this hx

end Mine

namespace Mine

theorem sum_indicator (R : List Nat) (hR : R.Nodup) (d0 : Nat) (hd : d0 ∈ R) :
    (R.map (fun d => if d0 = d then 1 else 0)).sum = 1 := by
  induction R with
  | nil => cases hd
  | cons a as ih =>
    rcases List.nodup_cons.mp hR with ⟨ha, has⟩
    simp only [List.map_cons, List.sum_cons]
    rcases List.mem_cons.mp hd with hda | hda
    · rw [if_pos hda]
      have hzero : as.map (fun d => if d0 = d then 1 else 0) = as.map (fun _ => 0) := by
        refine List.map_congr_left ?_
        intro x hx
        refine if_neg ?_
        intro hdx
        exact ha ((hda.symm.trans hdx).symm ▸ hx)
      rw [hzero]
      simp
    · have hne : d0 ≠ a := by
        intro h
        rw [← h] at ha
        exact ha hda
      rw [if_neg hne, ih has hda]

theorem sum_filter_len (cands : List Candidate)
    (hall : ∀ c ∈ cands, ∃ d ∈ DOCTRINE_RANGE, c.doctrine = some d) :
    (DOCTRINE_RANGE.map
      (fun d => (cands.filter (fun c => c.doctrine == some d)).length)).sum
      = cands.length := by
  induction cands with
  | nil => simp
  | cons c cs ih =>
    rcases hall c (List.mem_cons_self _ _) with ⟨d0, hd0, hdoc⟩
    have hstep : ∀ d ∈ DOCTRINE_RANGE,
        ((c :: cs).filter (fun x => x.doctrine == some d)).length
          = (fun d => (if d0 = d then 1 else 0)
              + (cs.filter (fun x => x.doctrine == some d)).length) d := by
      intro d _
      show ((c :: cs).filter (fun x => x.doctrine == some d)).length
          = (if d0 = d then 1 else 0)
            + (cs.filter (fun x => x.doctrine == some d)).length
      simp only [List.filter_cons]
      by_cases h : d0 = d
      · subst h
        have ht : (c.doctrine == some d0) = true := by
          rw [hdoc]; exact beq_self_eq_true _
        rw [ht]
        simp only [eq_self_iff_true, if_true, List.length_cons]
        omega
      · have ht : (c.doctrine == some d) = false := by
          rw [hdoc]
          simp only [beq_eq_false_iff_ne, ne_eq, Option.some.injEq]
          exact h
        rw [ht]
        simp only [Bool.false_eq_true, if_false, h]
        omega
    rw [List.map_congr_left hstep, sum_map_add, sum_indicator DOCTRINE_RANGE (by decide) d0 hd0,
      ih (fun x hx => hall x (List.mem_cons_of_mem c hx)), List.length_cons]
    omega

theorem sumLen_eq (cands : List Candidate)
    (hall : ∀ c ∈ cands, ∃ d ∈ DOCTRINE_RANGE, c.doctrine = some d) :
    sumLen (bucket cands) = cands.length := by
  rw [sumLen]
  have hcongr : ∀ d ∈ DOCTRINE_RANGE, (bucket cands d).length
      = (cands.filter (fun c => c.doctrine == some d)).length := by
    intro d _
    rw [bucket, length_sortCands]
  rw [List.map_congr_left hcongr]
  exact sum_filter_len cands hall

theorem countP_flatten_ge (L : List (List Candidate)) (l : List Candidate)
    (hl : l ∈ L) (p : Candidate → Bool) :
    l.countP p ≤ L.flatten.countP p := by
  induction L with
  | nil => cases hl
  | cons a as ih =>
    rw [List.flatten_cons, List.countP_append]
    rcases List.mem_cons.mp hl with hl | hl
    · subst hl; omega
    · have := ih hl; omega

theorem countP_bucket_take (cands : List Candidate) (d : Nat) (base : Nat) :
    ((bucket cands d).take base).countP (fun c => c.doctrine == some d)
      = ((bucket cands d).take base).length := by
  refine List.countP_eq_length.mpr ?_
  intro x hx
  rcases (mem_bucket cands d x).mp (List.mem_of_mem_take hx) with ⟨_, hdoc⟩
  rw [hdoc]
  exact beq_self_eq_true _

theorem firstPass_length (buckets : Nat → List Candidate) (base : Nat) :
    (firstPass buckets base).length = sumMin buckets (fun _ => base) := by
  rw [firstPass, List.length_flatten, List.map_map, sumMin]
  refine congrArg List.sum (List.map_congr_left ?_)
  intro d _
  simp [Function.comp, List.length_take]

theorem sum_const_range (k : Nat) : (DOCTRINE_RANGE.map (fun _ => k)).sum = 11 * k := by
  simp only [DOCTRINE_RANGE, List.map_cons, List.map_nil, List.sum_cons, List.sum_nil]
  omega

theorem firstPass_length_le (buckets : Nat → List Candidate) (total : Nat) :
    (firstPass buckets (total / 11)).length ≤ total := by
  rw [firstPass_length]
  have h1 : sumMin buckets (fun _ => total / 11) ≤
      (DOCTRINE_RANGE.map (fun _ => total / 11)).sum :=
    sum_map_le _ _ _ (fun x _ => Nat.min_le_left _ _)
  rw [sum_const_range] at h1
  omega

theorem firstPass_sub (buckets : Nat → List Candidate) (base : Nat) :
    ∀ d ∈ DOCTRINE_RANGE, ∀ x ∈ (buckets d).take base, x ∈ firstPass buckets base := by
  intro d hd x hx
  rw [firstPass]
  exact List.mem_flatten.mpr ⟨(buckets d).take base, List.mem_map_of_mem _ hd, hx⟩

end Mine

/-- C2 (amended): `select_balanced` never returns more than `total` records;
when every one of the 11 doctrine buckets holds at least `total / 11`
candidates, every bucket contributes at least `total / 11` records to the
output; and when the input holds no more than `total` candidates ALL OF
WHOSE doctrines lie in 1..11, every input candidate is returned.  Candidates
whose doctrine is `None` or outside 1..11 are silently discarded by the
bucketing step, so the unconditional "returns all of them" clause of the
original claim fails. -/
theorem C2_select_balanced_amended (cands : List Mine.Candidate) (total : Nat) :
    (Mine.select_balanced cands total).length ≤ total ∧
    ((∀ d ∈ Mine.DOCTRINE_RANGE, total / 11 ≤ (Mine.bucket cands d).length) →
      ∀ d ∈ Mine.DOCTRINE_RANGE,
        total / 11 ≤
          (Mine.select_balanced cands total).countP (fun c => c.doctrine == some d)) ∧
    ((∀ c ∈ cands, ∃ d ∈ Mine.DOCTRINE_RANGE, c.doctrine = some d) →
      cands.length ≤ total → ∀ c ∈ cands, c ∈ Mine.select_balanced cands total) := by
  refine ⟨List.length_take_le _ _, ?_, ?_⟩
  · intro hb d hd
    rcases Mine.selectLoop_append (Mine.bucket cands) total total (fun _ => total / 11)
      (Mine.firstPass (Mine.bucket cands) (total / 11)) with ⟨extra, hextra⟩
    rw [Mine.select_balanced, hextra, List.take_append_eq_append_take,
      List.take_of_length_le (Mine.firstPass_length_le _ total), List.countP_append]
    have h1 := Mine.countP_flatten_ge
      (Mine.DOCTRINE_RANGE.map (fun e => (Mine.bucket cands e).take (total / 11)))
      ((Mine.bucket cands d).take (total / 11))
      (List.mem_map_of_mem _ hd) (fun c => c.doctrine == some d)
    rw [Mine.countP_bucket_take, List.length_take] at h1
    have h2 := hb d hd
    rw [Mine.firstPass]
    omega
  · intro hall hlen c hc
    have hSL : Mine.sumLen (Mine.bucket cands) ≤ total := by
      rw [Mine.sumLen_eq cands hall]
      exact hlen
    rcases hall c hc with ⟨d0, hd0, hdoc⟩
    have hmem := Mine.selectLoop_complete (Mine.bucket cands) total hSL total
      (fun _ => total / 11) (Mine.firstPass (Mine.bucket cands) (total / 11))
      (Mine.firstPass_length _ _) (Mine.firstPass_sub _ _)
      (Nat.le_add_right _ _) d0 hd0 c ((Mine.mem_bucket _ _ _).mpr ⟨hc, hdoc⟩)
    have hfin : (Mine.selectLoop (Mine.bucket cands) total total (fun _ => total / 11)
        (Mine.firstPass (Mine.bucket cands) (total / 11))).length ≤ total :=
      Mine.selectLoop_length_le (Mine.bucket cands) total hSL total _ _
        (Mine.firstPass_length _ _)
    rw [Mine.select_balanced, List.take_of_length_le hfin]
    exact hmem

namespace Mine

/-- A candidate whose doctrine could not be determined in-range. -/
def noDoctrineCand : Candidate where
  doctrine := none
  doctrine_label := "Unknown".toList
  text := "A quotation with no doctrine assigned.".toList
  author := "Handbook of Salvation Army Doctrine (1923), p. 9".toList
  source_title := "Handbook of Salvation Army Doctrine".toList
  source_year := 1923
  source_file := "handbookofsalvat00unse.pdf".toList
  page := 9
  chapter := none
  score := 300

/-- One maximal-score candidate per doctrine bucket. -/
def quotaCand (d : Nat) : Candidate where
  doctrine := some d
  doctrine_label := "Doctrine".toList
  text := "q".toList
  author := "Handbook".toList
  source_title := "Handbook".toList
  source_year := 1923
  source_file := "handbookofsalvat00unse.pdf".toList
  page := d
  chapter := some d
  score := 200

def quotaCands : List Candidate := DOCTRINE_RANGE.map quotaCand

end Mine

/-- C2 counterexample: one candidate, target total 5 — fewer candidates than
requested — yet `select_balanced` returns nothing at all, because the
candidate's doctrine is `None` and the bucketing step drops it; this
refutes the claim's "returns all of them" clause. -/
theorem C2_counterexample :
    Mine.noDoctrineCand.doctrine = none ∧
    ([Mine.noDoctrineCand] : List Mine.Candidate).length ≤ 5 ∧
    Mine.select_balanced [Mine.noDoctrineCand] 5 = [] :=
  ⟨rfl, by decide, by decide⟩

/-- C2 witness: the amended theorem applied to 11 concrete candidates, one
per doctrine, with target 11. -/
theorem C2_witness :
    (∀ d ∈ Mine.DOCTRINE_RANGE, 11 / 11 ≤ (Mine.bucket Mine.quotaCands d).length) ∧
    11 / 11 ≤ (Mine.select_balanced Mine.quotaCands 11).countP
        (fun c => c.doctrine == some 3) ∧
    Mine.quotaCand 7 ∈ Mine.select_balanced Mine.quotaCands 11 := by
  refine ⟨by decide, ?_, ?_⟩
  · exact (C2_select_balanced_amended Mine.quotaCands 11).2.1 (by decide) 3 (by decide)
  · exact (C2_select_balanced_amended Mine.quotaCands 11).2.2 (by decide) (by decide)
      (Mine.quotaCand 7) (by decide)

/-! ## tools/review_handbook_quotes.py: flags and `classify` -/

namespace Review

def OCR_HEADER_MARKERS : List (List Char) :=
  ["HANDBOOK OF DOCTRINE", "THE BIBLE", "[chap", "chap."].map String.toList

def STRUCTURE_MARKERS : List (List Char) :=
  ["Sec.", "Section", "I.—", "II.—", "III.—", "IV.—", "V.—", "VI.—", "VII.—",
    "VIII.—", "IX.—", "X.—", "XI.—"].map String.toList

def POLEMIC_TERMS : List (List Char) :=
  ["impostor", "self-deceived", "wrath of god", "everlasting punishment",
    "wicked"].map String.toList

def SENSITIVE_GROUP_TERMS : List (List Char) :=
  ["jewish", "jews", "heathen", "infidel", "pagan", "mohammedan"].map String.toList

def NEEDS_CONTEXT_STARTS : List (List Char) :=
  ["according to this view", "however", "therefore", "thus", "but", "and", "or",
    "this means", "hence"].map String.toList

/-- `has_any`: does the lowercased haystack contain any lowercased needle. -/
def has_any (hay : List Char) (needles : List (List Char)) : Bool :=
  needles.any (fun n => Mine.containsSub (Mine.lowerStr n) (Mine.lowerStr hay))

def isSentPunct (c : Char) : Bool := c == '.' || c == '!' || c == '?'

/-- `re.search` of the terminal-punctuation pattern: after trailing
whitespace is dropped, the text ends in `.`/`!`/`?`, optionally followed by
one straight double or single quote. -/
def terminalPunct (t : List Char) : Bool :=
  match (rtrimWs t).reverse with
  | [] => false
  | c :: rest =>
    isSentPunct c ||
      ((c == '"' || decide (c.toNat = 39)) &&
        (match rest with
         | [] => false
         | d :: _ => isSentPunct d))

def endsSemi (t : List Char) : Bool :=
  match t.reverse with
  | [] => false
  | c :: _ => c == ';'

/-- `[i-vx]` with `re.IGNORECASE`. -/
def isRomanClassChar (cc : Char) : Bool :=
  (decide (105 ≤ cc.toNat) && decide (cc.toNat ≤ 118)) || decide (cc.toNat = 120) ||
    (decide (73 ≤ cc.toNat) && decide (cc.toNat ≤ 86)) || decide (cc.toNat = 88)

/-- `DANGLING_END_RE.search`: after trailing whitespace, the text ends in a
`.` preceded by a word-boundary-anchored run of 1–6 `[i-vx]` letters
(case-insensitive) or by a digit run.  The run adjacent to the dot is
maximal: a start inside it is preceded by a word character and has no
boundary, so the whole run must be class characters of admissible length
with a non-word character (or the string start) before it. -/
def danglingEnd (t : List Char) : Bool :=
  match (rtrimWs t).reverse with
  | [] => false
  | c :: u =>
    if c == '.' then
      let r := u.takeWhile isRomanClassChar
      let dg := u.takeWhile isDigitChar
      (decide (1 ≤ r.length) && decide (r.length ≤ 6) &&
        (match (u.drop r.length).head? with
         | none => true
         | some a => !isWordChar a)) ||
      (decide (1 ≤ dg.length) &&
        (match (u.drop dg.length).head? with
         | none => true
         | some a => !isWordChar a))
    else false

/-- `is_incomplete` (the argument is re-normalized inside, as in the source). -/
def is_incomplete (text : List Char) : Bool :=
  let t := normalize text
  if t.isEmpty then true
  else if decide (t.length < 70) then true
  else if !terminalPunct t && !endsSemi t then true
  else danglingEnd t

def starts_needing_context (text : List Char) : Bool :=
  let t := Mine.lowerStr (normalize text)
  NEEDS_CONTEXT_STARTS.any (fun p => p.isPrefixOf t)

/-- `classify`'s decision bucket.  The returned `ReviewRow` only passes the
record's `author`/`doctrine`/`source` fields through and never influences
the bucket, so only the text-driven decision is modelled; the
`ocr_hyphen_artifact`, scripture-density and `doctrinal_anchor` flags are
recorded by the source but ignored by the decision table and are omitted. -/
def classify (raw : List Char) : List Char :=
  let text := normalize raw
  let incomplete := is_incomplete text
  let ocrHeader := has_any text OCR_HEADER_MARKERS
  let structureMarker := has_any text STRUCTURE_MARKERS
  let needsCtx := starts_needing_context text
  let polemic := has_any text POLEMIC_TERMS
  let sensitive := has_any text SENSITIVE_GROUP_TERMS
  if incomplete && (ocrHeader || structureMarker) then "drop".toList
  else if polemic || sensitive || needsCtx || ocrHeader || structureMarker then
    "flag".toList
  else "safe".toList

theorem is_incomplete_short (raw : List Char) (h : (normalize raw).length < 70) :
    is_incomplete (normalize raw) = true := by
  have hid : normalize (normalize raw) = normalize raw := normCore_idem raw
  simp only [is_incomplete, hid]
  by_cases he : (normalize raw).isEmpty
  · simp [he]
  · simp [he, h]

/-- A 40-character record ending mid-word, with no marker or tone trigger. -/
def fragmentSafeRaw : List Char :=
  "The mercy of the Lord endures for all ge".toList

/-- A 40-character record ending mid-word that carries a structure marker. -/
def fragmentMarkedRaw : List Char :=
  "Sec. IV.—The mercy of the Lord endures f".toList

/-- A 40-character record ending mid-word that carries a polemical term. -/
def fragmentPolemicRaw : List Char :=
  "The wicked shall not stand before the ju".toList

end Review

/-- C5 (amended): a record whose normalized text is 40 characters long is
incomplete (it is shorter than 70 characters), so `classify` buckets it as
`drop` whenever it carries a structure marker; without structure or OCR
header markers it is bucketed `flag` only when a polemical, sensitive, or
needs-context condition holds, and `safe` otherwise — bare incompleteness
alone does NOT put a record in `flag`. -/
theorem C5_short_record_triage (raw : List Char)
    (hlen : (Review.normalize raw).length = 40) :
    (Review.has_any (Review.normalize raw) Review.STRUCTURE_MARKERS = true →
      Review.classify raw = "drop".toList) ∧
    (Review.has_any (Review.normalize raw) Review.STRUCTURE_MARKERS = false →
     Review.has_any (Review.normalize raw) Review.OCR_HEADER_MARKERS = false →
     Review.has_any (Review.normalize raw) Review.POLEMIC_TERMS = true →
      Review.classify raw = "flag".toList) ∧
    (Review.has_any (Review.normalize raw) Review.STRUCTURE_MARKERS = false →
     Review.has_any (Review.normalize raw) Review.OCR_HEADER_MARKERS = false →
     Review.has_any (Review.normalize raw) Review.POLEMIC_TERMS = false →
     Review.has_any (Review.normalize raw) Review.SENSITIVE_GROUP_TERMS = false →
     Review.starts_needing_context (Review.normalize raw) = false →
      Review.classify raw = "safe".toList) := by
  have hinc : Review.is_incomplete (Review.normalize raw) = true :=
    Review.is_incomplete_short raw (by omega)
  refine ⟨?_, ?_, ?_⟩
  · intro hs
    simp [Review.classify, hinc, hs]
  · intro hs ho hp
    simp [Review.classify, hinc, hs, ho, hp]
  · intro hs ho hp hg hn
    simp [Review.classify, hinc, hs, ho, hp, hg, hn]

/-- C5 counterexample: a 40-character record ending mid-word (hence
incomplete) with no structure or header marker is bucketed `safe`, not
`flag` as the claim states: bare incompleteness is not in the flag list. -/
theorem C5_counterexample :
    (Review.normalize Review.fragmentSafeRaw).length = 40 ∧
    Review.is_incomplete (Review.normalize Review.fragmentSafeRaw) = true ∧
    Review.has_any (Review.normalize Review.fragmentSafeRaw)
      Review.STRUCTURE_MARKERS = false ∧
    Review.has_any (Review.normalize Review.fragmentSafeRaw)
      Review.OCR_HEADER_MARKERS = false ∧
    Review.classify Review.fragmentSafeRaw = "safe".toList :=
  ⟨by decide, by decide, by decide, by decide, by decide⟩

/-- C5 witness: the triage theorem applied at three concrete records. -/
theorem C5_witness :
    Review.classify Review.fragmentMarkedRaw = "drop".toList ∧
    Review.classify Review.fragmentPolemicRaw = "flag".toList ∧
    Review.classify Review.fragmentSafeRaw = "safe".toList :=
  ⟨(C5_short_record_triage Review.fragmentMarkedRaw (by decide)).1 (by decide),
   (C5_short_record_triage Review.fragmentPolemicRaw (by decide)).2.1
     (by decide) (by decide) (by decide),
   (C5_short_record_triage Review.fragmentSafeRaw (by decide)).2.2
     (by decide) (by decide) (by decide) (by decide) (by decide)⟩

/-! ## tools/collect_official_sa_quotes.py and collect_sa_quotes_wide.py:
robots.txt handling.  The network itself is external input; the loops are
modelled as event traces over an abstract robots oracle. -/

namespace Collect

/-- Observable network events of a collector run. -/
inductive Ev where
  | check (url : List Char) (allowed : Bool)
  | fetch (url : List Char)
deriving DecidableEq, Repr

/-- The per-URL loop of `collect_official_sa_quotes.main` (lines 141–156):
each URL is robots-checked before fetching, and the first disallowed URL
raises `SystemExit`, aborting the whole run (the `Bool` is `false` for an
aborted run). -/
def officialRun (robots : List Char → Bool) : List (List Char) → List Ev × Bool
  | [] => ([], true)
  | u :: us =>
    if robots u then
      ((Ev.check u true :: Ev.fetch u :: (officialRun robots us).1),
        (officialRun robots us).2)
    else ([Ev.check u false], false)

/-- The per-URL loop of `collect_sa_quotes_wide.main`: every URL is fetched
directly and no robots.txt is ever consulted; fetch failures are skipped
with `continue`, so the run always completes. -/
def wideRun (urls : List (List Char)) : List Ev × Bool :=
  (urls.map Ev.fetch, true)

/-- `robots_allows`: building and reading the site's `robots.txt` parser can
raise; the outcome is abstracted as an `Except` — `.error` when
`set_url`/`read` raised any exception, `.ok can_fetch` with the parser's
`can_fetch` oracle otherwise — and the except-branch returns `True`. -/
def robots_allows (readResult : Except Unit (List Char → List Char → Bool))
    (ua url : List Char) : Bool :=
  match readResult with
  | .error _ => true
  | .ok can_fetch => can_fetch ua url

def okUrl : List Char :=
  "https://www.salvationarmy.org/generals-salvation-army".toList

def blockedUrl : List Char :=
  "https://www.salvationarmy.org/private-page".toList

def wideUrl : List Char :=
  "https://archive.org/stream/item/item_djvu.txt".toList

def demoRobots (u : List Char) : Bool := !(u == blockedUrl)

end Collect

/-- C9 (amended, holding only for the official collector): every URL the
official collector fetches was robots-checked and allowed beforehand, and
any disallowed URL in the list aborts the whole run with a failure exit.
The wide collector performs no robots check at all (see the
counterexample). -/
theorem C9_official_robots_gate (robots : List Char → Bool)
    (urls : List (List Char)) :
    (∀ u, Collect.Ev.fetch u ∈ (Collect.officialRun robots urls).1 →
      robots u = true ∧
        Collect.Ev.check u true ∈ (Collect.officialRun robots urls).1) ∧
    ((∃ u ∈ urls, robots u = false) →
      (Collect.officialRun robots urls).2 = false) := by
  induction urls with
  | nil =>
    constructor
    · intro u hu
      simp [Collect.officialRun] at hu
    · rintro ⟨u, hu, _⟩
      cases hu
  | cons v vs ih =>
    by_cases hv : robots v = true
    · constructor
      · intro u hu
        rw [Collect.officialRun, if_pos hv] at hu
        rcases List.mem_cons.mp hu with hu | hu
        · cases hu
        · rcases List.mem_cons.mp hu with hu | hu
          · cases hu
            refine ⟨hv, ?_⟩
            rw [Collect.officialRun, if_pos hv]
            exact List.mem_cons_self _ _
          · rcases ih.1 u hu with ⟨h1, h2⟩
            refine ⟨h1, ?_⟩
            rw [Collect.officialRun, if_pos hv]
            exact List.mem_cons_of_mem _ (List.mem_cons_of_mem _ h2)
      · rintro ⟨u, hu, hfalse⟩
        rw [Collect.officialRun, if_pos hv]
        rcases List.mem_cons.mp hu with hu | hu
        · subst hu
          rw [hv] at hfalse
          cases hfalse
        · exact ih.2 ⟨u, hu, hfalse⟩
    · have hv2 : robots v = false := by
        cases h : robots v
        · rfl
        · exact absurd h hv
      constructor
      · intro u hu
        rw [Collect.officialRun, if_neg (by simp [hv2])] at hu
        rcases List.mem_cons.mp hu with hu | hu
        · cases hu
        · cases hu
      · intro _
        rw [Collect.officialRun, if_neg (by simp [hv2])]

/-- C9 counterexample: the wide collector's run on a URL completes
successfully, fetches the URL, and its trace contains no robots check for
it (or for anything), refuting "a robots.txt check is performed once per
URL before fetching" for every collector script. -/
theorem C9_counterexample :
    (Collect.wideRun [Collect.wideUrl]).2 = true ∧
    Collect.Ev.fetch Collect.wideUrl ∈ (Collect.wideRun [Collect.wideUrl]).1 ∧
    ∀ b, Collect.Ev.check Collect.wideUrl b ∉ (Collect.wideRun [Collect.wideUrl]).1 :=
  ⟨rfl, by decide, by decide⟩

/-- C9 witness: the official-collector theorem applied at a concrete robots
oracle and URL list with one allowed and one blocked URL. -/
theorem C9_witness :
    Collect.Ev.check Collect.okUrl true ∈
      (Collect.officialRun Collect.demoRobots [Collect.okUrl, Collect.blockedUrl]).1 ∧
    (Collect.officialRun Collect.demoRobots [Collect.okUrl, Collect.blockedUrl]).2
      = false :=
  ⟨((C9_official_robots_gate Collect.demoRobots
      [Collect.okUrl, Collect.blockedUrl]).1 Collect.okUrl (by decide)).2,
   (C9_official_robots_gate Collect.demoRobots
      [Collect.okUrl, Collect.blockedUrl]).2
     ⟨Collect.blockedUrl, by decide, by decide⟩⟩

/-- C10: `robots_allows` fails open — whenever reading or parsing the
site's robots.txt raises, the function returns `True` and the URL is
treated as allowed. -/
theorem C10_robots_fail_open (e : Unit)
    (ua url : List Char) :
    Collect.robots_allows (Except.error e) ua url = true := rfl

end PrayerQuotes
